import Mathlib

/-!
Shallow embedding of `crates/polars-arrow/src/io/ipc/read/common.rs`:
the Arrow IPC record-batch decode orchestrator (`read_record_batch`), the
projection sequencer (`ProjectionIter`), the dictionary resolver
(`read_dictionary`, `first_dict_field`), and the projection planner
(`prepare_projection`, `apply_projection`).

Machine integers are modelled as `Nat`/`Int`; fallible Rust code returns
an explicit outcome value; Rust panics (assertion failures and
out-of-bounds indexing) are modelled by a distinguished `panicked`
outcome.  The external per-type decode capability (`deserialize::read`
and `deserialize::skip`, which are not part of this file of the
repository) is modelled from the spec as an abstract structure over an
explicit cursor state.
-/

set_option maxHeartbeats 1000000

namespace IpcRead

/-- Outcome of a computation that may panic (a fatal assertion or an
out-of-bounds index), but not return a recoverable error. -/
inductive PanicOr (α : Type) where
  | panicked : PanicOr α
  | ok (a : α) : PanicOr α
deriving DecidableEq, Repr

/-- Outcome of a fallible computation that may also panic: `panicked` is a
fatal assertion or index failure, `error` a returned recoverable error. -/
inductive POutcome (ε α : Type) where
  | panicked : POutcome ε α
  | error (e : ε) : POutcome ε α
  | ok (a : α) : POutcome ε α
deriving DecidableEq, Repr

/-- Tag attached by the projection sequencer to each source item
(`enum ProjectionResult` in the source). -/
inductive ProjectionResult (A : Type) where
  | Selected (a : A) : ProjectionResult A
  | NotSelected (a : A) : ProjectionResult A
deriving DecidableEq, Repr

/-- Payload carried by a tag. -/
def ProjectionResult.item : ProjectionResult A → A
  | .Selected a => a
  | .NotSelected a => a

/-- True exactly on `Selected` tags. -/
def ProjectionResult.isSelected : ProjectionResult A → Bool
  | .Selected _ => true
  | .NotSelected _ => false

/-- State of the projection sequencer (`struct ProjectionIter` in the
source): the remaining wanted positions, the position counter and the
next wanted position. -/
structure ProjectionIter where
  projection : List Nat
  current_count : Nat
  current_projection : Nat
deriving DecidableEq, Repr

/-- Constructor of the sequencer (`ProjectionIter::new`). On an empty
wanted list the source indexes `projection[0]` of an empty slice, which
panics. -/
def ProjectionIter.new (projection : List Nat) : PanicOr ProjectionIter :=
  match projection with
  | [] => .panicked
  | p :: rest => .ok ⟨rest, 0, p⟩

/-- One step of the sequencer (`ProjectionIter::next` on a non-exhausted
source iterator). When the counter hits the current wanted position and
further wanted positions remain, the source asserts that the next one is
strictly larger; a violated assertion is a panic. -/
def ProjectionIter.next (s : ProjectionIter) (item : A) :
    PanicOr (ProjectionResult A × ProjectionIter) :=
  if s.current_count = s.current_projection then
    match s.projection with
    | p :: rest =>
      if s.current_projection < p then
        .ok (.Selected item, ⟨rest, s.current_count + 1, p⟩)
      else
        .panicked
    | [] =>
      .ok (.Selected item, ⟨[], s.current_count + 1, 0⟩)
  else
    .ok (.NotSelected item, ⟨s.projection, s.current_count + 1, s.current_projection⟩)

/-- Drains a finite source list through the sequencer from a given state,
collecting the emitted tags. -/
def ProjectionIter.runFrom (s : ProjectionIter) : List A → PanicOr (List (ProjectionResult A))
  | [] => .ok []
  | x :: xs =>
    match s.next x with
    | .panicked => .panicked
    | .ok (t, s1) =>
      match runFrom s1 xs with
      | .panicked => .panicked
      | .ok ts => .ok (t :: ts)

/-- Builds the sequencer on a wanted list and drains a finite source list
through it. -/
def ProjectionIter.run (projection : List Nat) (items : List A) :
    PanicOr (List (ProjectionResult A)) :=
  match ProjectionIter.new projection with
  | .panicked => .panicked
  | .ok s => s.runFrom items

/-- Specification-side tagging: item number `c + j` of the source is
`Selected` exactly when `c + j` is a wanted position. Used to state what
the sequencer is claimed to compute. -/
def tagsSpec (c : Nat) (wanted : List Nat) : List A → List (ProjectionResult A)
  | [] => []
  | x :: xs => (if c ∈ wanted then .Selected x else .NotSelected x) :: tagsSpec (c + 1) wanted xs

mutual
/-- Recursively nested Arrow logical type tree (`ArrowDataType` in the
source). All non-nested variants are collapsed into `primitive` with a
numeric tag; the nested variants carry exactly the children the source
traversals look at (`List`, `LargeList`, `FixedSizeList`, `Map` carry a
child field, `Struct` and `Union` an ordered child field list,
`Dictionary` a key-type tag, an inner value type and a sortedness flag). -/
inductive ArrowDataType where
  | primitive (tag : Nat) : ArrowDataType
  | list (f : Field) : ArrowDataType
  | largeList (f : Field) : ArrowDataType
  | fixedSizeList (f : Field) (size : Nat) : ArrowDataType
  | map (f : Field) (sorted : Bool) : ArrowDataType
  | struct (fs : List Field) : ArrowDataType
  | union (fs : List Field) : ArrowDataType
  | dictionary (key : Nat) (inner : ArrowDataType) (sorted : Bool) : ArrowDataType

/-- Named schema field (`Field` in the source): name, data type,
nullability. -/
inductive Field where
  | mk (name : String) (dtype : ArrowDataType) (nullable : Bool) : Field
end

/-- Name of a field. -/
def Field.name : Field → String
  | .mk n _ _ => n

/-- Data type of a field. -/
def Field.dtype : Field → ArrowDataType
  | .mk _ d _ => d

/-- Nullability of a field. -/
def Field.nullable : Field → Bool
  | .mk _ _ b => b

instance : Inhabited Field := ⟨.mk "" (.primitive 0) false⟩

/-- Per-field IPC metadata tree (`IpcField` in the source): child
metadata nodes mirroring the nested children of the field type, and an
optional dictionary id. -/
inductive IpcField where
  | mk (fields : List IpcField) (dictionary_id : Option Int) : IpcField

/-- Child metadata nodes of an IPC field. -/
def IpcField.fields : IpcField → List IpcField
  | .mk fs _ => fs

/-- Optional dictionary id of an IPC field. -/
def IpcField.dictionary_id : IpcField → Option Int
  | .mk _ i => i

/-- IPC-level schema metadata (`IpcSchema` in the source). -/
structure IpcSchema where
  fields : List IpcField
  is_little_endian : Bool

/-- Out-of-spec (format violation) error kinds used by this file of the
source (`OutOfSpecKind`). -/
inductive OutOfSpecKind where
  | MissingMessageBuffers : OutOfSpecKind
  | InvalidBuffersLength (buffers_size : Nat) (file_size : Nat) : OutOfSpecKind
  | NegativeFooterLength : OutOfSpecKind
  | MissingMessageNodes : OutOfSpecKind
  | MissingData : OutOfSpecKind
  | InvalidId (requested_id : Int) : OutOfSpecKind
  | InvalidIdDataType (requested_id : Int) : OutOfSpecKind
deriving DecidableEq, Repr

/-- Recoverable polars error: a format violation or a compute error
(`PolarsError` through `polars_err!` / `polars_bail!`). -/
inductive PolarsError where
  | oos (kind : OutOfSpecKind) : PolarsError
  | ComputeError (msg : String) : PolarsError
deriving DecidableEq, Repr

/-- Buffer descriptor of the batch metadata (`arrow_format::ipc::BufferRef`):
a declared byte offset and byte length, both signed 64-bit in the format. -/
structure Buffer where
  offset : Int
  length : Int
deriving DecidableEq, Repr

/-- Field node of the batch metadata (`arrow_format::ipc::FieldNodeRef`):
declared row count and null count. -/
structure FieldNode where
  length : Int
  null_count : Int
deriving DecidableEq, Repr

/-- Shared cursor state threaded through per-field decode and skip calls:
the field node queue, the variadic buffer count queue and the buffer
descriptor queue built by `read_record_batch`. The seekable byte reader
and the scratch buffer of the source are folded into the decode
capability, which is the only consumer of either. -/
structure Cursors where
  field_nodes : List FieldNode
  variadic_buffer_counts : List Nat
  buffers : List Buffer
deriving DecidableEq, Repr

/-- Dictionary cache (`Dictionaries`): a mapping from dictionary id to a
decoded array value. -/
def Dictionaries (α : Type) : Type := Int → Option α

/-- Cache insertion (`Dictionaries::insert`): a full overwrite of the
entry under the id. -/
def Dictionaries.insert (d : Dictionaries α) (id : Int) (v : α) : Dictionaries α :=
  fun i => if i = id then some v else d i

/-- Modelled from the spec: the external per-type decode capability
(`deserialize::read` and `deserialize::skip`, code of this repository
that is not under src/). `read` decodes one array for a field, advancing
the shared cursors by exactly what it consumed; `skip` advances the
cursors for one field without materializing a value. The byte source,
block offset, endianness flag, metadata version and scratch buffer of
the source signatures are folded into the capability; the compression
setting and row limit are passed per call as in the source. -/
structure DecodeCap (α : Type) where
  read : Cursors → Field → IpcField → Dictionaries α → Option Nat → Option Nat →
    Except PolarsError (α × Cursors)
  skip : Cursors → ArrowDataType → Except PolarsError Cursors

/-- Batch metadata record (`arrow_format::ipc::RecordBatchRef`): optional
buffer descriptor list, optional variadic buffer counts, optional field
node list, declared row length and compression setting. The
flatbuffer-verification error layer of the accessors is not modelled;
the optional fields model the optional flatbuffer table entries. -/
structure RecordBatchRef where
  buffers : Option (List Buffer)
  variadic_buffer_counts : Option (List Nat)
  nodes : Option (List FieldNode)
  length : Int
  compression : Option Nat
deriving DecidableEq, Repr

/-- Row batch (`RecordBatchT`): row length, schema snapshot and decoded
array values. -/
structure RecordBatchT (α : Type) where
  length : Nat
  schema : List Field
  arrays : List α

/-- Modelled from the spec: `RecordBatchT::try_new` (code of this
repository that is not under src/) enforces the Row Batch invariant that
the array count equals the schema field count; array heights are not
observable on the abstract array type and are not modelled. -/
def RecordBatchT.try_new (length : Nat) (schema : List Field) (arrays : List α) :
    Except PolarsError (RecordBatchT α) :=
  if arrays.length = schema.length then .ok ⟨length, schema, arrays⟩
  else .error (.ComputeError "RecordBatch requires an equal number of arrays and fields")

mutual
/-- Depth-first search over a data type tree with its parallel IPC
metadata node (`find_first_dict_field_d` in the source): a dictionary
type descends into its inner value type with the same metadata node;
list-like types descend into the child field with the first metadata
child (indexing `ipc_field.fields[0]` panics when there is none); struct
and union types walk their zipped children in declared order; all other
types end the search. -/
def find_first_dict_field_d (id : Int) : ArrowDataType → IpcField →
    PanicOr (Option (Field × IpcField))
  | .dictionary _ inner _, ipc_field => find_first_dict_field_d id inner ipc_field
  | .list f, ipc_field =>
    match ipc_field.fields with
    | [] => .panicked
    | i0 :: _ => find_first_dict_field id f i0
  | .largeList f, ipc_field =>
    match ipc_field.fields with
    | [] => .panicked
    | i0 :: _ => find_first_dict_field id f i0
  | .fixedSizeList f _, ipc_field =>
    match ipc_field.fields with
    | [] => .panicked
    | i0 :: _ => find_first_dict_field id f i0
  | .map f _, ipc_field =>
    match ipc_field.fields with
    | [] => .panicked
    | i0 :: _ => find_first_dict_field id f i0
  | .struct fs, ipc_field => find_first_dict_field_children id fs ipc_field.fields
  | .union fs, ipc_field => find_first_dict_field_children id fs ipc_field.fields
  | .primitive _, _ => .ok none
termination_by dt _ => sizeOf dt

/-- Loop body of the struct and union cases of `find_first_dict_field_d`:
walks zipped children in declared order, returning the first hit
(the Rust zip truncates at the shorter list). -/
def find_first_dict_field_children (id : Int) : List Field → List IpcField →
    PanicOr (Option (Field × IpcField))
  | f :: fs, i :: is_ =>
    match find_first_dict_field id f i with
    | .panicked => .panicked
    | .ok (some r) => .ok (some r)
    | .ok none => find_first_dict_field_children id fs is_
  | _, _ => .ok none
termination_by fs _ => sizeOf fs

/-- Pre-order check of one (field, IPC field) pair
(`find_first_dict_field` in the source): the node itself is checked for
the id first, then its type tree is searched. -/
def find_first_dict_field (id : Int) (field : Field) (ipc_field : IpcField) :
    PanicOr (Option (Field × IpcField)) :=
  match ipc_field.dictionary_id with
  | some field_id =>
    if id = field_id then .ok (some (field, ipc_field))
    else find_first_dict_field_d id field.dtype ipc_field
  | none => find_first_dict_field_d id field.dtype ipc_field
termination_by sizeOf field
decreasing_by
  all_goals cases field
  all_goals simp [Field.dtype]
  all_goals omega
end

/-- Loop body of `first_dict_field`: walks the zipped top-level
(field, IPC field) pairs left to right, returning the first hit. -/
def first_dict_field_loop (id : Int) : List (Field × IpcField) →
    PanicOr (Option (Field × IpcField))
  | [] => .ok none
  | (f, i) :: rest =>
    match find_first_dict_field id f i with
    | .panicked => .panicked
    | .ok (some r) => .ok (some r)
    | .ok none => first_dict_field_loop id rest

/-- Top-level dictionary-id lookup (`first_dict_field` in the source):
asserts that the schema and the IPC metadata have the same number of
fields (a mismatch panics), then searches the top-level fields left to
right; when no field carries the id the lookup fails with an invalid-id
format error. -/
def first_dict_field (id : Int) (fields : List Field) (ipc_fields : List IpcField) :
    POutcome PolarsError (Field × IpcField) :=
  if fields.length = ipc_fields.length then
    match first_dict_field_loop id (fields.zip ipc_fields) with
    | .panicked => .panicked
    | .ok (some r) => .ok r
    | .ok none => .error (.oos (.InvalidId id))
  else .panicked

mutual
/-- Structural parallelism of a data type tree and an IPC metadata node,
exactly strong enough for the traversal of `find_first_dict_field_d` not
to panic: list-like types need at least one metadata child that is
parallel to the child field; struct and union types need parallelism on
the zipped children; dictionary types recurse into the inner type. -/
def wfDtype : ArrowDataType → IpcField → Bool
  | .dictionary _ inner _, ipc => wfDtype inner ipc
  | .list f, ipc =>
    match ipc.fields with
    | [] => false
    | i0 :: _ => wfField f i0
  | .largeList f, ipc =>
    match ipc.fields with
    | [] => false
    | i0 :: _ => wfField f i0
  | .fixedSizeList f _, ipc =>
    match ipc.fields with
    | [] => false
    | i0 :: _ => wfField f i0
  | .map f _, ipc =>
    match ipc.fields with
    | [] => false
    | i0 :: _ => wfField f i0
  | .struct fs, ipc => wfChildren fs ipc.fields
  | .union fs, ipc => wfChildren fs ipc.fields
  | .primitive _, _ => true
termination_by dt _ => sizeOf dt

/-- Parallelism on zipped children lists. -/
def wfChildren : List Field → List IpcField → Bool
  | f :: fs, i :: is_ => wfField f i && wfChildren fs is_
  | _, _ => true
termination_by fs _ => sizeOf fs

/-- Parallelism of a field and an IPC metadata node. -/
def wfField (f : Field) (ipc : IpcField) : Bool :=
  wfDtype f.dtype ipc
termination_by sizeOf f
decreasing_by
  all_goals cases f
  all_goals simp [Field.dtype]
  all_goals omega
end

mutual
/-- Specification-side flattening: the children pairs reachable from a
data type with its parallel metadata node, in depth-first pre-order
(struct and union children in declared order, list-like element child
with the first metadata child, dictionary inner type with the same
node). -/
def dictPairsD : ArrowDataType → IpcField → List (Field × IpcField)
  | .dictionary _ inner _, ipc => dictPairsD inner ipc
  | .list f, ipc =>
    match ipc.fields with
    | [] => []
    | i0 :: _ => dictPairs f i0
  | .largeList f, ipc =>
    match ipc.fields with
    | [] => []
    | i0 :: _ => dictPairs f i0
  | .fixedSizeList f _, ipc =>
    match ipc.fields with
    | [] => []
    | i0 :: _ => dictPairs f i0
  | .map f _, ipc =>
    match ipc.fields with
    | [] => []
    | i0 :: _ => dictPairs f i0
  | .struct fs, ipc => dictPairsChildren fs ipc.fields
  | .union fs, ipc => dictPairsChildren fs ipc.fields
  | .primitive _, _ => []
termination_by dt _ => sizeOf dt

/-- Specification-side flattening over zipped children lists. -/
def dictPairsChildren : List Field → List IpcField → List (Field × IpcField)
  | f :: fs, i :: is_ => dictPairs f i ++ dictPairsChildren fs is_
  | _, _ => []
termination_by fs _ => sizeOf fs

/-- Specification-side flattening: the (field, IPC field) pairs of one
tree in depth-first pre-order, the root pair first. -/
def dictPairs (f : Field) (ipc : IpcField) : List (Field × IpcField) :=
  (f, ipc) :: dictPairsD f.dtype ipc
termination_by sizeOf f
decreasing_by
  all_goals cases f
  all_goals simp [Field.dtype]
  all_goals omega
end

/-- Predicate satisfied by a (field, IPC field) pair carrying the
requested dictionary id, as checked by `find_first_dict_field`. -/
def dictIdPred (id : Int) : Field × IpcField → Bool :=
  fun p => decide (p.2.dictionary_id = some id)

/-- Sum of the declared buffer byte lengths of a batch, as in the source:
each signed 64-bit length is converted to an unsigned 64-bit value,
failing with a `NegativeFooterLength` format error at the first negative
one (left to right), and the results are summed as unsigned 64-bit
values, so each addition wraps at 2 ^ 64 as the release-build u64 sum of
the source does (a nonnegative i64 length is below 2 ^ 63, so only the
additions can wrap). The source folds from the left; wrapped addition is
associative and commutative, so the structural right fold used here
computes the same wrapped total. -/
def bufferSizeSum : List Buffer → Except PolarsError Nat
  | [] => .ok 0
  | b :: bs =>
    if b.length < 0 then .error (.oos .NegativeFooterLength)
    else
      match bufferSizeSum bs with
      | .error e => .error e
      | .ok s => .ok ((b.length.toNat + s) % 2 ^ 64)

/-- Decode of every (field, IPC field) pair in schema order (the
no-projection branch of `read_record_batch`), threading the shared
cursors through consecutive `read` calls. -/
def readAll (cap : DecodeCap α) (d : Dictionaries α) (comp : Option Nat) (lim : Option Nat) :
    List (Field × IpcField) → Cursors → Except PolarsError (List α × Cursors)
  | [], c => .ok ([], c)
  | (f, i) :: rest, c =>
    match cap.read c f i d comp lim with
    | .error e => .error e
    | .ok (a, c1) =>
      match readAll cap d comp lim rest c1 with
      | .error e => .error e
      | .ok (vs, c2) => .ok (a :: vs, c2)

/-- Decode of a projected batch (the projection branch of
`read_record_batch`): each (field, IPC field) pair is tagged by the
projection sequencer; selected pairs are decoded with `read`, the others
advance the cursors with `skip`; only selected arrays are collected. -/
def readProjected (cap : DecodeCap α) (d : Dictionaries α) (comp : Option Nat)
    (lim : Option Nat) : ProjectionIter → List (Field × IpcField) → Cursors →
    POutcome PolarsError (List α × Cursors)
  | _, [], c => .ok ([], c)
  | st, (f, i) :: rest, c =>
    match st.next (f, i) with
    | .panicked => .panicked
    | .ok (.Selected _, st1) =>
      match cap.read c f i d comp lim with
      | .error e => .error e
      | .ok (a, c1) =>
        match readProjected cap d comp lim st1 rest c1 with
        | .panicked => .panicked
        | .error e => .error e
        | .ok (vs, c2) => .ok (a :: vs, c2)
    | .ok (.NotSelected _, st1) =>
      match cap.skip c f.dtype with
      | .error e => .error e
      | .ok c1 => readProjected cap d comp lim st1 rest c1

/-- Declared batch length clipped by the optional caller-supplied row
limit, as computed by `read_record_batch`:
`limit.map(|limit| limit.min(length)).unwrap_or(length)`. -/
def clipLength (limit : Option Nat) (length : Nat) : Nat :=
  match limit with
  | some l => min l length
  | none => length

/-- Modelled from the spec: `ArrowSchema::try_project_indices` (code of
this repository that is not under src/) restricts and reduces the schema
to the projected indices; the call site unwraps its result, so an
out-of-range index is a panic. -/
def try_project_indices (fields : List Field) (projection : List Nat) :
    PanicOr (List Field) :=
  if ∀ i ∈ projection, i < fields.length then
    .ok (projection.map fun i => fields.getD i default)
  else .panicked

/-- Batch decoder (`read_record_batch` in the source): asserts equal
schema and IPC metadata field counts, validates the buffer metadata
(summing every declared buffer length of the batch before any per-field
decode or skip), decodes the columns (all of them, or through the
projection sequencer when a projection is given), determines the row
length from the declared batch length clipped by the optional limit, and
builds the Row Batch over the full or projected schema. -/
def read_record_batch (batch : RecordBatchRef) (fields : List Field)
    (ipc_schema : IpcSchema) (projection : Option (List Nat)) (limit : Option Nat)
    (dictionaries : Dictionaries α) (cap : DecodeCap α) (file_size : Nat) :
    POutcome PolarsError (RecordBatchT α) :=
  if fields.length = ipc_schema.fields.length then
    match batch.buffers with
    | none => .error (.oos .MissingMessageBuffers)
    | some buffers =>
      let variadic_buffer_counts := batch.variadic_buffer_counts.getD []
      match bufferSizeSum buffers with
      | .error e => .error e
      | .ok buffers_size =>
        if buffers_size > file_size then
          .error (.oos (.InvalidBuffersLength buffers_size file_size))
        else
          match batch.nodes with
          | none => .error (.oos .MissingMessageNodes)
          | some field_nodes =>
            let cursors : Cursors := ⟨field_nodes, variadic_buffer_counts, buffers⟩
            let pairs := fields.zip ipc_schema.fields
            let columnsOut : POutcome PolarsError (List α) :=
              match projection with
              | some proj =>
                match ProjectionIter.new proj with
                | .panicked => .panicked
                | .ok st =>
                  match readProjected cap dictionaries batch.compression limit st pairs cursors with
                  | .panicked => .panicked
                  | .error e => .error e
                  | .ok (vs, _) => .ok vs
              | none =>
                match readAll cap dictionaries batch.compression limit pairs cursors with
                | .error e => .error e
                | .ok (vs, _) => .ok vs
            match columnsOut with
            | .panicked => .panicked
            | .error e => .error e
            | .ok columns =>
              if batch.length < 0 then .error (.oos .NegativeFooterLength)
              else
                let length := clipLength limit batch.length.toNat
                let schemaOut : PanicOr (List Field) :=
                  match projection with
                  | some proj => try_project_indices fields proj
                  | none => .ok fields
                match schemaOut with
                | .panicked => .panicked
                | .ok schema =>
                  match RecordBatchT.try_new length schema columns with
                  | .error e => .error e
                  | .ok rb => .ok rb
  else .panicked

/-- Dictionary batch metadata record
(`arrow_format::ipc::DictionaryBatchRef`): the is-delta flag, the
declared dictionary id and the optional record-batch payload. The
flatbuffer-verification error layer of the accessors is not modelled. -/
structure DictionaryBatchRef where
  is_delta : Bool
  id : Int
  data : Option RecordBatchRef

/-- Dictionary resolver (`read_dictionary` in the source): rejects delta
batches, looks up the schema position of the declared id, extracts the
dictionary value type (failing when the matched field is not
dictionary-typed; extension types are not modelled, so
`to_logical_type` is the identity here), synthesizes a single-field
schema around the value type, decodes the payload with no projection and
no row limit, and finally inserts the single resulting array into the
cache under the id. The second component of the result is the cache
after the call, which is written only by that final insertion. -/
def read_dictionary (batch : DictionaryBatchRef) (fields : List Field)
    (ipc_schema : IpcSchema) (dictionaries : Dictionaries α) (cap : DecodeCap α)
    (file_size : Nat) : POutcome PolarsError Unit × Dictionaries α :=
  if batch.is_delta then
    (.error (.ComputeError "delta dictionary batches not supported"), dictionaries)
  else
    match first_dict_field batch.id fields ipc_schema.fields with
    | .panicked => (.panicked, dictionaries)
    | .error e => (.error e, dictionaries)
    | .ok (first_field, first_ipc_field) =>
      match batch.data with
      | none => (.error (.oos .MissingData), dictionaries)
      | some data =>
        match first_field.dtype with
        | .dictionary _ value_type _ =>
          let fields1 : List Field := [.mk "" value_type false]
          let ipc_schema1 : IpcSchema := ⟨[first_ipc_field], ipc_schema.is_little_endian⟩
          match read_record_batch data fields1 ipc_schema1 none none dictionaries cap file_size with
          | .panicked => (.panicked, dictionaries)
          | .error e => (.error e, dictionaries)
          | .ok chunk =>
            match chunk.arrays.getLast? with
            | none => (.panicked, dictionaries)
            | some arr => (.ok (), dictionaries.insert batch.id arr)
        | _ => (.error (.oos (.InvalidIdDataType batch.id)), dictionaries)

/-- Projection plan (`ProjectionInfo` in the source): the sorted unique
index list handed to the batch decoder, the mapping from decode (sorted)
position to requested position, and the sub-schema in requested order.
The hash map of the source is modelled as an association list;
its iteration order is arbitrary in the source, and the reordering
writes it drives are pairwise independent. -/
structure ProjectionInfo where
  columns : List Nat
  map : List (Nat × Nat)
  schema : List Field

/-- Projection planner (`prepare_projection` in the source): builds the
sub-schema in requested order (an out-of-range index panics at the
unwrap), derives the sorted decode order and the position map by sorting
a permutation array by the requested indices, sorts the requested list
in place, and asserts that the sorted list is strictly increasing
(duplicates panic). -/
def prepare_projection (schema : List Field) (projection : List Nat) :
    PanicOr ProjectionInfo :=
  if ∀ i ∈ projection, i < schema.length then
    let sub := projection.map fun i => schema.getD i default
    let indices := (List.range projection.length).mergeSort
      (fun i j => projection.getD i 0 ≤ projection.getD j 0)
    let map := indices.enum
    let sorted := projection.mergeSort (· ≤ ·)
    if List.Chain' (· < ·) sorted then
      .ok ⟨sorted, map, sub⟩
    else .panicked
  else .panicked

/-- Reordering loop of `apply_projection`: for every (old, new) pair of
the map, the schema entry and the array at the old (decode) position of
the original batch are written into the new (requested) position of the
output; out-of-range positions panic at the unwraps and the array
indexing of the source. -/
def apply_projection_go (schema : List Field) (arrays : List α) :
    List (Nat × Nat) → List Field → List α → PanicOr (List Field × List α)
  | [], ns, na => .ok (ns, na)
  | (old, new) :: rest, ns, na =>
    match schema[old]?, arrays[old]? with
    | some fo, some ao =>
      if new < ns.length ∧ new < na.length then
        apply_projection_go schema arrays rest (ns.set new fo) (na.set new ao)
      else .panicked
    | _, _ => .panicked

/-- Projection reordering (`apply_projection` in the source): clones the
decoded batch and rewrites schema entries and arrays according to the
map, restoring the requested column order; the row length is passed
through unchanged (`RecordBatchT::new` is modelled as plain
construction). -/
def apply_projection (chunk : RecordBatchT α) (map : List (Nat × Nat)) :
    PanicOr (RecordBatchT α) :=
  match apply_projection_go chunk.schema chunk.arrays map chunk.schema chunk.arrays with
  | .panicked => .panicked
  | .ok (ns, na) => .ok ⟨chunk.length, ns, na⟩

/-- Concrete decode capability at array type `Nat`, used to evaluate the
embedding on closed inputs: a read pops one field node and returns the
node count before the pop; a skip pops one field node, consuming exactly
what the matching read would have consumed. -/
def natCap : DecodeCap Nat where
  read c _ _ _ _ _ :=
    .ok (c.field_nodes.length, ⟨c.field_nodes.drop 1, c.variadic_buffer_counts, c.buffers⟩)
  skip c _ := .ok ⟨c.field_nodes.drop 1, c.variadic_buffer_counts, c.buffers⟩

/-- Empty dictionary cache at array type `Nat`. -/
def natDicts : Dictionaries Nat := fun _ => none

/-! Lemmas about the projection sequencer. -/

theorem tagsSpec_length (c : Nat) (wanted : List Nat) (xs : List A) :
    (tagsSpec c wanted xs).length = xs.length := by
  induction xs generalizing c with
  | nil => rfl
  | cons x xs ih => simp [tagsSpec, ih]

theorem tagsSpec_getElem? (c : Nat) (wanted : List Nat) (xs : List A) (j : Nat) :
    (tagsSpec c wanted xs)[j]? =
      xs[j]?.map
        (fun x => if c + j ∈ wanted then ProjectionResult.Selected x
                  else ProjectionResult.NotSelected x) := by
  induction xs generalizing c j with
  | nil => simp [tagsSpec]
  | cons x xs ih =>
    cases j with
    | zero => simp [tagsSpec]
    | succ j =>
      have harith : c + (j + 1) = (c + 1) + j := by omega
      simp [tagsSpec, ih (c + 1) j, harith]

theorem tagsSpec_map_item (c : Nat) (wanted : List Nat) (xs : List A) :
    (tagsSpec c wanted xs).map ProjectionResult.item = xs := by
  induction xs generalizing c with
  | nil => rfl
  | cons x xs ih =>
    simp only [tagsSpec, List.map_cons, ih]
    split <;> rfl

theorem tagsSpec_nil_wanted (c : Nat) (xs : List A) :
    tagsSpec c [] xs = xs.map ProjectionResult.NotSelected := by
  induction xs generalizing c with
  | nil => rfl
  | cons x xs ih => simp [tagsSpec, ih]

theorem tagsSpec_drop_head (c p : Nat) (rest : List Nat) (xs : List A) (h : p < c) :
    tagsSpec c (p :: rest) xs = tagsSpec c rest xs := by
  induction xs generalizing c with
  | nil => rfl
  | cons x xs ih =>
    have hne : c ≠ p := by omega
    simp only [tagsSpec, List.mem_cons, ih (c + 1) (by omega)]
    congr 1
    by_cases hc : c ∈ rest <;> simp [hc, hne]

theorem tagsSpec_countP (c : Nat) (wanted : List Nat) (xs : List A) :
    (tagsSpec c wanted xs).countP (·.isSelected) =
      ((List.range' c xs.length).filter (fun i => decide (i ∈ wanted))).length := by
  induction xs generalizing c with
  | nil => rfl
  | cons x xs ih =>
    simp only [tagsSpec, List.length_cons, List.range'_succ, List.countP_cons,
      List.filter_cons, ih (c + 1)]
    by_cases hc : c ∈ wanted <;>
      simp [hc, ProjectionResult.isSelected]

theorem range_filter_mem_length (wanted : List Nat) (N : Nat)
    (hnd : wanted.Nodup) (hbound : ∀ i ∈ wanted, i < N) :
    ((List.range N).filter (fun i => decide (i ∈ wanted))).length = wanted.length := by
  classical
  have hnodup : ((List.range N).filter (fun i => decide (i ∈ wanted))).Nodup :=
    (List.nodup_range N).filter _
  have hmem : ∀ a, a ∈ (List.range N).filter (fun i => decide (i ∈ wanted)) ↔ a ∈ wanted := by
    intro a
    simp only [List.mem_filter, List.mem_range, decide_eq_true_eq]
    exact ⟨fun h => h.2, fun h => ⟨hbound a h, h⟩⟩
  have hfin : ((List.range N).filter (fun i => decide (i ∈ wanted))).toFinset
      = wanted.toFinset := by
    ext a
    simp only [List.mem_toFinset]
    exact hmem a
  have h1 := List.toFinset_card_of_nodup hnodup
  have h2 := List.toFinset_card_of_nodup hnd
  rw [hfin, h2] at h1
  exact h1.symm

/-- Run of the sequencer from an exhausted state: once the wanted list is
drained and the counter has passed the sentinel zero, every item is
`NotSelected`. -/
theorem runFrom_exhausted (xs : List A) (c : Nat) (hc : 1 ≤ c) :
    ProjectionIter.runFrom ⟨[], c, 0⟩ xs = .ok (xs.map ProjectionResult.NotSelected) := by
  induction xs generalizing c with
  | nil => rfl
  | cons x xs ih =>
    simp only [ProjectionIter.runFrom, ProjectionIter.next]
    rw [if_neg (by omega)]
    simp [ih (c + 1) (by omega)]

theorem chain'_head_lt_mem {p : Nat} {w : List Nat}
    (h : List.Chain' (· < ·) (p :: w)) : ∀ y ∈ w, p < y := by
  have hp := List.chain'_iff_pairwise.mp h
  exact (List.pairwise_cons.mp hp).1

/-- Central correctness of the sequencer: from a consistent state (counter
at most the next wanted position, remaining wanted positions strictly
increasing) the run succeeds and computes the specification-side
tagging. -/
theorem runFrom_spec (xs : List A) :
    ∀ (c p : Nat) (w : List Nat), c ≤ p → List.Chain' (· < ·) (p :: w) →
    ProjectionIter.runFrom ⟨w, c, p⟩ xs = .ok (tagsSpec c (p :: w) xs) := by
  induction xs with
  | nil => intro c p w _ _; rfl
  | cons x xs ih =>
    intro c p w hcp hchain
    by_cases hc : c = p
    · subst hc
      cases w with
      | nil =>
        simp only [ProjectionIter.runFrom, ProjectionIter.next]
        rw [if_pos trivial]
        simp only [runFrom_exhausted xs (c + 1) (by omega)]
        have : tagsSpec (c + 1) [c] xs = xs.map ProjectionResult.NotSelected := by
          rw [tagsSpec_drop_head (c + 1) c [] xs (by omega), tagsSpec_nil_wanted]
        simp [tagsSpec, this]
      | cons q w' =>
        have hq : c < q := chain'_head_lt_mem hchain q (by simp)
        simp only [ProjectionIter.runFrom, ProjectionIter.next]
        rw [if_pos trivial]
        rw [if_pos hq]
        have hrec := ih (c + 1) q w' (by omega) hchain.tail
        simp only [hrec]
        have : tagsSpec (c + 1) (c :: q :: w') xs = tagsSpec (c + 1) (q :: w') xs :=
          tagsSpec_drop_head (c + 1) c (q :: w') xs (by omega)
        simp [tagsSpec, this]
    · have hlt : c < p := by omega
      simp only [ProjectionIter.runFrom, ProjectionIter.next]
      rw [if_neg hc]
      have hrec := ih (c + 1) p w (by omega) hchain
      simp only [hrec]
      have hnotmem : c ∉ p :: w := by
        intro hmem
        rcases List.mem_cons.mp hmem with h | h
        · omega
        · exact absurd (chain'_head_lt_mem hchain c h) (by omega)
      simp [tagsSpec, hnotmem]

/-- Panic of the sequencer from a state whose head remaining wanted
position already violates strict monotonicity, provided the source is
long enough to reach the violating step. -/
theorem runFrom_panic (xs : List A) :
    ∀ (c a b : Nat) (rest : List Nat), c ≤ a → b ≤ a → a < c + xs.length →
    ProjectionIter.runFrom ⟨b :: rest, c, a⟩ xs = .panicked := by
  induction xs with
  | nil => intro c a b rest h1 _ h3; simp at h3; omega
  | cons x xs ih =>
    intro c a b rest hca hba hlen
    by_cases hc : c = a
    · subst hc
      simp only [ProjectionIter.runFrom, ProjectionIter.next]
      rw [if_pos trivial]
      rw [if_neg (by omega)]
    · simp only [ProjectionIter.runFrom, ProjectionIter.next]
      rw [if_neg hc]
      have := ih (c + 1) a b rest (by omega) hba (by simp at hlen; omega)
      simp [this]

/-- Panic of the sequencer from any consistent state whose remaining
wanted list eventually violates strict monotonicity at a reachable
position. -/
theorem runFrom_panic_general (xs : List A) :
    ∀ (w1 : List Nat) (p c a b : Nat) (rest : List Nat),
    c ≤ p → List.Chain' (· < ·) (p :: (w1 ++ [a])) → b ≤ a → a < c + xs.length →
    ProjectionIter.runFrom ⟨w1 ++ a :: b :: rest, c, p⟩ xs = .panicked := by
  induction xs with
  | nil =>
    intro w1 p c a b rest hcp hchain _ hlen
    have hpa : p < a := chain'_head_lt_mem hchain a (by simp)
    simp at hlen; omega
  | cons x xs ih =>
    intro w1 p c a b rest hcp hchain hba hlen
    by_cases hc : c = p
    · subst hc
      cases w1 with
      | nil =>
        simp only [List.nil_append] at hchain ⊢
        have hpa : c < a := chain'_head_lt_mem hchain a (by simp)
        simp only [ProjectionIter.runFrom, ProjectionIter.next]
        rw [if_pos trivial]
        rw [if_pos hpa]
        have := runFrom_panic xs (c + 1) a b rest (by omega) hba (by simp at hlen; omega)
        simp [this]
      | cons q w1' =>
        have hq : c < q := chain'_head_lt_mem hchain q (by simp)
        simp only [List.cons_append] at hchain ⊢
        simp only [ProjectionIter.runFrom, ProjectionIter.next]
        rw [if_pos trivial]
        rw [if_pos hq]
        have := ih w1' q (c + 1) a b rest (by omega) hchain.tail hba (by simp at hlen; omega)
        simp [this]
    · simp only [ProjectionIter.runFrom, ProjectionIter.next]
      rw [if_neg hc]
      have := ih w1 p (c + 1) a b rest (by omega) hchain hba (by simp at hlen; omega)
      simp [this]

/-- C2: for every source sequence of length N and every strictly
increasing, non-empty list of wanted positions drawn from [0,N), the
Projection Sequencer emits exactly N tagged items in source order, one
tag per source item; the number of Selected tags equals the length of
the wanted list, Selected tags occur exactly at the wanted positions,
and every item after the last wanted position is tagged NotSelected. -/
theorem claim_C2 {A : Type} (wanted : List Nat) (xs : List A)
    (hne : wanted ≠ []) (hinc : List.Chain' (· < ·) wanted)
    (hbound : ∀ i ∈ wanted, i < xs.length) :
    ∃ tags, ProjectionIter.run wanted xs = .ok tags ∧
      tags.length = xs.length ∧
      tags.map ProjectionResult.item = xs ∧
      (∀ j, tags[j]? = xs[j]?.map
        (fun x => if j ∈ wanted then ProjectionResult.Selected x
                  else ProjectionResult.NotSelected x)) ∧
      tags.countP (·.isSelected) = wanted.length ∧
      (∀ j, (∀ i ∈ wanted, i < j) →
        tags[j]? = xs[j]?.map ProjectionResult.NotSelected) := by
  cases wanted with
  | nil => exact absurd rfl hne
  | cons p w =>
    refine ⟨tagsSpec 0 (p :: w) xs, ?_, tagsSpec_length 0 _ xs, tagsSpec_map_item 0 _ xs,
      ?_, ?_, ?_⟩
    · simp only [ProjectionIter.run, ProjectionIter.new]
      exact runFrom_spec xs 0 p w (Nat.zero_le p) hinc
    · intro j
      simpa using tagsSpec_getElem? 0 (p :: w) xs j
    · rw [tagsSpec_countP]
      have hnd : (p :: w).Nodup :=
        (List.chain'_iff_pairwise.mp hinc).imp Nat.ne_of_lt
      rw [← List.range_eq_range']
      exact range_filter_mem_length (p :: w) xs.length hnd hbound
    · intro j hj
      have hrw := tagsSpec_getElem? 0 (p :: w) xs j
      simp only [Nat.zero_add] at hrw
      rw [hrw]
      have hnot : j ∉ p :: w := fun hmem => absurd (hj j hmem) (lt_irrefl j)
      cases xs[j]? <;> simp [hnot]

/-- C9: handing the Projection Sequencer an empty wanted-position list
fails fatally at construction, and a wanted list that is not strictly
increasing makes the assertion fire (a panic, not a returned recoverable
error) once iteration reaches the violation point: after the strictly
increasing prefix ending at position a, with the next wanted entry b at
most a, and a source long enough to reach position a. -/
theorem claim_C9 {A : Type} (xs : List A) :
    (ProjectionIter.run ([] : List Nat) xs = .panicked) ∧
    (∀ (pre : List Nat) (a b : Nat) (rest : List Nat),
      List.Chain' (· < ·) (pre ++ [a]) → b ≤ a → a < xs.length →
      ProjectionIter.run (pre ++ a :: b :: rest) xs = .panicked) := by
  constructor
  · rfl
  · intro pre a b rest hchain hba hlen
    cases pre with
    | nil =>
      simp only [List.nil_append, ProjectionIter.run, ProjectionIter.new]
      exact runFrom_panic xs 0 a b rest (Nat.zero_le a) hba (by omega)
    | cons p pre' =>
      simp only [List.cons_append, ProjectionIter.run, ProjectionIter.new]
      apply runFrom_panic_general xs pre' p 0 a b rest (Nat.zero_le p) ?_ hba (by omega)
      simpa using hchain

/-- Witness for C9 at concrete inputs: the empty wanted list, and the
wanted list [0, 1, 1] over a two-item source. -/
theorem claim_C9_witness :
    (ProjectionIter.run ([] : List Nat) [10, 20] = .panicked) ∧
    ProjectionIter.run ([0] ++ 1 :: 1 :: []) [10, 20] = .panicked :=
  ⟨(claim_C9 [10, 20]).1,
    (claim_C9 [10, 20]).2 [0] 1 1 [] (by simp) (by decide) (by decide)⟩

/-- Witness for C2 at a concrete input: the wanted list [0, 2, 4] over
the five-item source of the unit test of the source file. -/
theorem claim_C2_witness :
    ∃ tags, ProjectionIter.run [0, 2, 4] [1, 2, 3, 4, 5] = .ok tags ∧
      tags.length = ([1, 2, 3, 4, 5] : List Nat).length ∧
      tags.map ProjectionResult.item = [1, 2, 3, 4, 5] ∧
      (∀ j, tags[j]? = ([1, 2, 3, 4, 5] : List Nat)[j]?.map
        (fun x => if j ∈ [0, 2, 4] then ProjectionResult.Selected x
                  else ProjectionResult.NotSelected x)) ∧
      tags.countP (·.isSelected) = ([0, 2, 4] : List Nat).length ∧
      (∀ j, (∀ i ∈ [0, 2, 4], i < j) →
        tags[j]? = ([1, 2, 3, 4, 5] : List Nat)[j]?.map ProjectionResult.NotSelected) :=
  claim_C2 [0, 2, 4] [1, 2, 3, 4, 5] (by decide) (by simp) (by decide)

/-! Lemmas about the buffer bookkeeping of the batch decoder. -/

theorem bufferSizeSum_of_neg (bs : List Buffer) (h : ∃ b ∈ bs, b.length < 0) :
    bufferSizeSum bs = .error (.oos .NegativeFooterLength) := by
  induction bs with
  | nil => simp at h
  | cons b bs ih =>
    by_cases hb : b.length < 0
    · simp [bufferSizeSum, hb]
    · rcases h with ⟨b', hb', hneg⟩
      rcases List.mem_cons.mp hb' with rfl | hmem
      · exact absurd hneg hb
      · simp [bufferSizeSum, hb, ih ⟨b', hmem, hneg⟩]

theorem bufferSizeSum_of_nonneg (bs : List Buffer) (h : ∀ b ∈ bs, 0 ≤ b.length) :
    bufferSizeSum bs = .ok ((bs.map (fun b => b.length.toNat)).sum % 2 ^ 64) := by
  induction bs with
  | nil => simp [bufferSizeSum]
  | cons b bs ih =>
    have hb : ¬ b.length < 0 := by have := h b (by simp); omega
    simp only [bufferSizeSum, if_neg hb, ih (fun x hx => h x (by simp [hx])),
      List.map_cons, List.sum_cons, Nat.add_mod_mod]

/-- C3 (amended): for every record batch, `read_record_batch` sums the
declared byte lengths of all buffer descriptors of the batch — including
buffers of fields a projection will skip — in wrapping unsigned 64-bit
arithmetic, before any per-field decode or skip is invoked, and returns
an out-of-spec error without reading any buffer content (the result is
the same for every decode capability and cache) whenever a declared
length is negative or the wrapped sum exceeds the source total size. A
batch whose mathematical sum overflows 64 bits can wrap to a value at or
below the source size and pass the check. -/
theorem claim_C3 {α : Type} (batch : RecordBatchRef) (fields : List Field)
    (ipc_schema : IpcSchema) (projection : Option (List Nat)) (limit : Option Nat)
    (file_size : Nat) (bs : List Buffer)
    (hlen : fields.length = ipc_schema.fields.length)
    (hb : batch.buffers = some bs) :
    ((∃ b ∈ bs, b.length < 0) →
      ∀ (d : Dictionaries α) (cap : DecodeCap α),
        read_record_batch batch fields ipc_schema projection limit d cap file_size =
          .error (.oos .NegativeFooterLength)) ∧
    ((∀ b ∈ bs, 0 ≤ b.length) →
      file_size < (bs.map (fun b => b.length.toNat)).sum % 2 ^ 64 →
      ∀ (d : Dictionaries α) (cap : DecodeCap α),
        read_record_batch batch fields ipc_schema projection limit d cap file_size =
          .error (.oos (.InvalidBuffersLength
            ((bs.map (fun b => b.length.toNat)).sum % 2 ^ 64) file_size))) := by
  constructor
  · intro hneg d cap
    simp only [read_record_batch, hb, hlen, bufferSizeSum_of_neg bs hneg]
    rw [if_pos trivial]
  · intro hnn hsz d cap
    simp only [read_record_batch, hb, hlen, bufferSizeSum_of_nonneg bs hnn]
    rw [if_pos trivial]
    rw [if_pos (by omega)]

/-- Witness for C3 (amended) at concrete inputs: a single buffer of
declared length -1 is rejected as negative, and a single buffer of
declared length 5 against a source of size 3 is rejected as too large. -/
theorem claim_C3_witness :
    read_record_batch ⟨some [⟨0, -1⟩], none, some [], 0, none⟩ ([] : List Field)
      ⟨[], true⟩ none none natDicts natCap 10 = .error (.oos .NegativeFooterLength) ∧
    read_record_batch ⟨some [⟨0, 5⟩], none, some [], 0, none⟩ ([] : List Field)
      ⟨[], true⟩ none none natDicts natCap 3 =
      .error (.oos (.InvalidBuffersLength 5 3)) :=
  ⟨(claim_C3 ⟨some [⟨0, -1⟩], none, some [], 0, none⟩ [] ⟨[], true⟩ none none 10
      [⟨0, -1⟩] rfl rfl).1 ⟨⟨0, -1⟩, by simp, by norm_num⟩ natDicts natCap,
   (claim_C3 ⟨some [⟨0, 5⟩], none, some [], 0, none⟩ [] ⟨[], true⟩ none none 3
      [⟨0, 5⟩] rfl rfl).2 (by norm_num) (by decide) natDicts natCap⟩

/-- Counterexample for C3 as stated: three buffers of declared lengths
2 ^ 63 - 1, 2 ^ 63 - 1 and 2 (all nonnegative, each a valid i64) sum to
2 ^ 64 mathematically, far above the source size 0, yet the unsigned
64-bit sum computed by the decoder wraps to 0, the size check passes,
and the decode proceeds to a Row Batch instead of returning the
out-of-spec error the claim demands. -/
theorem claim_C3_counterexample :
    (∀ b ∈ ([⟨0, 2 ^ 63 - 1⟩, ⟨0, 2 ^ 63 - 1⟩, ⟨0, 2⟩] : List Buffer), 0 ≤ b.length) ∧
    0 < (([⟨0, 2 ^ 63 - 1⟩, ⟨0, 2 ^ 63 - 1⟩, ⟨0, 2⟩] : List Buffer).map
      (fun b => b.length.toNat)).sum ∧
    read_record_batch ⟨some [⟨0, 2 ^ 63 - 1⟩, ⟨0, 2 ^ 63 - 1⟩, ⟨0, 2⟩], none, some [],
        0, none⟩ ([] : List Field) ⟨[], true⟩ none none natDicts natCap 0 =
      .ok ⟨0, [], []⟩ :=
  ⟨by decide, by decide, rfl⟩

/-- C6: every successfully decoded record batch has row length equal to
the declared batch length clipped by the optional caller-supplied limit:
the minimum of the limit and the declared length when a limit is
supplied, the declared length unchanged otherwise. -/
theorem claim_C6 {α : Type} (batch : RecordBatchRef) (fields : List Field)
    (ipc_schema : IpcSchema) (projection : Option (List Nat)) (limit : Option Nat)
    (d : Dictionaries α) (cap : DecodeCap α) (file_size : Nat) (rb : RecordBatchT α)
    (h : read_record_batch batch fields ipc_schema projection limit d cap file_size =
      .ok rb) :
    rb.length = clipLength limit batch.length.toNat := by
  simp only [read_record_batch] at h
  split at h <;> try exact POutcome.noConfusion h
  split at h <;> try exact POutcome.noConfusion h
  split at h <;> try exact POutcome.noConfusion h
  split at h <;> try exact POutcome.noConfusion h
  split at h <;> try exact POutcome.noConfusion h
  split at h <;> try exact POutcome.noConfusion h
  split at h <;> try exact POutcome.noConfusion h
  split at h <;> try exact POutcome.noConfusion h
  split at h <;> try exact POutcome.noConfusion h
  rename_i rb1 heq
  cases h
  simp only [RecordBatchT.try_new] at heq
  split at heq
  · cases heq; rfl
  · exact Except.noConfusion heq

/-- Witness for C6 at a concrete input: one field, declared length 7,
limit 3; the decoded Row Batch has length 3. -/
theorem claim_C6_witness :
    (⟨3, [default], [1]⟩ : RecordBatchT Nat).length = clipLength (some 3) (7 : Int).toNat :=
  claim_C6 ⟨some [], none, some [⟨5, 0⟩], 7, none⟩ [default] ⟨[.mk [] none], true⟩
    none (some 3) natDicts natCap 0 ⟨3, [default], [1]⟩ rfl

/-- C10: `read_record_batch` and `first_dict_field` assert that the
schema field count equals the IPC field-metadata count and panic on a
mismatch (for every batch content and decode capability, so before any
node or buffer is consumed), and every non-panicking execution operates
on schema and IPC metadata of equal length. -/
theorem claim_C10 {α : Type} (fields : List Field) (ipc_schema : IpcSchema) :
    (fields.length ≠ ipc_schema.fields.length →
      (∀ (batch : RecordBatchRef) (projection : Option (List Nat)) (limit : Option Nat)
        (d : Dictionaries α) (cap : DecodeCap α) (file_size : Nat),
        read_record_batch batch fields ipc_schema projection limit d cap file_size =
          .panicked) ∧
      (∀ id, first_dict_field id fields ipc_schema.fields = .panicked)) ∧
    (∀ (batch : RecordBatchRef) (projection : Option (List Nat)) (limit : Option Nat)
      (d : Dictionaries α) (cap : DecodeCap α) (file_size : Nat),
      read_record_batch batch fields ipc_schema projection limit d cap file_size ≠
        .panicked →
      fields.length = ipc_schema.fields.length) ∧
    (∀ id, first_dict_field id fields ipc_schema.fields ≠ .panicked →
      fields.length = ipc_schema.fields.length) := by
  have hpan : fields.length ≠ ipc_schema.fields.length →
      (∀ (batch : RecordBatchRef) (projection : Option (List Nat)) (limit : Option Nat)
        (d : Dictionaries α) (cap : DecodeCap α) (file_size : Nat),
        read_record_batch batch fields ipc_schema projection limit d cap file_size =
          .panicked) ∧
      (∀ id, first_dict_field id fields ipc_schema.fields = .panicked) := by
    intro h
    constructor
    · intro batch projection limit d cap file_size
      simp only [read_record_batch, if_neg h]
    · intro id
      simp only [first_dict_field, if_neg h]
  refine ⟨hpan, ?_, ?_⟩
  · intro batch projection limit d cap file_size hne
    by_contra h
    exact hne ((hpan h).1 batch projection limit d cap file_size)
  · intro id hne
    by_contra h
    exact hne ((hpan h).2 id)

/-- Witness for C10 at a concrete input: one schema field against an
empty IPC field-metadata list panics in both entry points. -/
theorem claim_C10_witness :
    read_record_batch ⟨some [], none, some [], 0, none⟩ [default] ⟨[], true⟩
      none none natDicts natCap 0 = .panicked ∧
    first_dict_field 0 [default] ([] : List IpcField) = .panicked :=
  ⟨((@claim_C10 Nat [default] ⟨[], true⟩).1 (by decide)).1
      ⟨some [], none, some [], 0, none⟩ none none natDicts natCap 0,
   ((@claim_C10 Nat [default] ⟨[], true⟩).1 (by decide)).2 0⟩

/-- C8 is refuted by the code: an empty requested-index list does not
yield an empty Row Batch — after the metadata checks pass, the
projection branch constructs the sequencer on the empty list, which
panics. Concretely, a batch with declared length 5 and no fields,
decoded under the empty projection, panics instead of producing the Row
Batch of length 5 with zero columns and empty schema that the claim
predicts. -/
theorem claim_C8_counterexample :
    read_record_batch ⟨some [], none, some [], 5, none⟩ ([] : List Field) ⟨[], true⟩
      (some []) none natDicts natCap 0 = .panicked ∧
    read_record_batch ⟨some [], none, some [], 5, none⟩ ([] : List Field) ⟨[], true⟩
      (some []) none natDicts natCap 0 ≠ .ok ⟨5, [], []⟩ := by
  refine ⟨rfl, ?_⟩
  intro hcon
  exact POutcome.noConfusion hcon

/-- C8 (amended): decoding a record batch with an empty requested-index
list yields no Row Batch at all: once the buffer and node metadata
checks pass, the decode panics in the sequencer constructor
(`ProjectionIter::new` indexes the empty wanted list), independently of
the decode capability, cache and limit. -/
theorem claim_C8 {α : Type} (batch : RecordBatchRef) (fields : List Field)
    (ipc_schema : IpcSchema) (limit : Option Nat) (d : Dictionaries α)
    (cap : DecodeCap α) (file_size : Nat) (bs : List Buffer) (ns : List FieldNode)
    (hlen : fields.length = ipc_schema.fields.length)
    (hb : batch.buffers = some bs)
    (hnn : ∀ b ∈ bs, 0 ≤ b.length)
    (hsz : (bs.map (fun b => b.length.toNat)).sum ≤ file_size)
    (hn : batch.nodes = some ns) :
    read_record_batch batch fields ipc_schema (some []) limit d cap file_size =
      .panicked := by
  simp only [read_record_batch, hb, hlen, bufferSizeSum_of_nonneg bs hnn, hn]
  rw [if_pos trivial]
  rw [if_neg (by
    have hm := Nat.mod_le ((bs.map (fun b => b.length.toNat)).sum) (2 ^ 64)
    omega)]
  rfl

/-- Witness for C8 (amended) at a concrete input. -/
theorem claim_C8_witness :
    read_record_batch ⟨some [], none, some [⟨2, 0⟩], 3, none⟩ [default]
      ⟨[.mk [] none], true⟩ (some []) none natDicts natCap 0 = .panicked :=
  claim_C8 ⟨some [], none, some [⟨2, 0⟩], 3, none⟩ [default] ⟨[.mk [] none], true⟩
    none natDicts natCap 0 [] [⟨2, 0⟩] rfl rfl (by simp) (by simp) rfl

/-! Lemmas about the dictionary-id lookup. -/

/-- Central correctness of the recursive lookup: on a pair of parallel
trees the source traversal returns exactly the first pair of the
depth-first pre-order flattening that carries the id. -/
theorem find_first_dict_field_spec (id : Int) (field : Field) (ipc_field : IpcField) :
    wfField field ipc_field = true →
    find_first_dict_field id field ipc_field =
      .ok ((dictPairs field ipc_field).find? (dictIdPred id)) := by
  refine find_first_dict_field.induct id
    (fun dt ipc => wfDtype dt ipc = true →
      find_first_dict_field_d id dt ipc = .ok ((dictPairsD dt ipc).find? (dictIdPred id)))
    (fun fs is_ => wfChildren fs is_ = true →
      find_first_dict_field_children id fs is_ =
        .ok ((dictPairsChildren fs is_).find? (dictIdPred id)))
    (fun f ipc => wfField f ipc = true →
      find_first_dict_field id f ipc = .ok ((dictPairs f ipc).find? (dictIdPred id)))
    ?_ ?_ ?_ ?_ ?_ ?_ ?_ ?_ ?_ ?_ ?_ ?_ ?_ ?_ ?_ ?_ ?_ ?_ ?_ field ipc_field
  · intro key inner sorted ipc ih hwf
    simp only [wfDtype] at hwf
    simp only [find_first_dict_field_d, dictPairsD]
    exact ih hwf
  · intro f ipc hfields hwf
    simp [wfDtype, hfields] at hwf
  · intro f ipc i0 tail hfields ih hwf
    simp only [wfDtype, hfields] at hwf
    simp only [find_first_dict_field_d, dictPairsD, hfields]
    exact ih hwf
  · intro f ipc hfields hwf
    simp [wfDtype, hfields] at hwf
  · intro f ipc i0 tail hfields ih hwf
    simp only [wfDtype, hfields] at hwf
    simp only [find_first_dict_field_d, dictPairsD, hfields]
    exact ih hwf
  · intro f size ipc hfields hwf
    simp [wfDtype, hfields] at hwf
  · intro f size ipc i0 tail hfields ih hwf
    simp only [wfDtype, hfields] at hwf
    simp only [find_first_dict_field_d, dictPairsD, hfields]
    exact ih hwf
  · intro f sorted ipc hfields hwf
    simp [wfDtype, hfields] at hwf
  · intro f sorted ipc i0 tail hfields ih hwf
    simp only [wfDtype, hfields] at hwf
    simp only [find_first_dict_field_d, dictPairsD, hfields]
    exact ih hwf
  · intro fs ipc ih hwf
    simp only [wfDtype] at hwf
    simp only [find_first_dict_field_d, dictPairsD]
    exact ih hwf
  · intro fs ipc ih hwf
    simp only [wfDtype] at hwf
    simp only [find_first_dict_field_d, dictPairsD]
    exact ih hwf
  · intro tag ipc _
    simp [find_first_dict_field_d, dictPairsD]
  · intro f fs i is_ hfind ih hwf
    simp only [wfChildren, Bool.and_eq_true] at hwf
    rw [ih hwf.1] at hfind
    exact PanicOr.noConfusion hfind
  · intro f fs i is_ r hfind ih hwf
    simp only [wfChildren, Bool.and_eq_true] at hwf
    have h1 := ih hwf.1
    rw [hfind] at h1
    injection h1 with h1
    simp only [find_first_dict_field_children, hfind, dictPairsChildren,
      List.find?_append, ← h1, Option.or_some]
  · intro f fs i is_ hfind ih ih2 hwf
    simp only [wfChildren, Bool.and_eq_true] at hwf
    have h1 := ih hwf.1
    rw [hfind] at h1
    injection h1 with h1
    simp only [find_first_dict_field_children, hfind, dictPairsChildren,
      List.find?_append, ← h1, Option.none_or]
    exact ih2 hwf.2
  · intro x x1 hno _
    cases x with
    | nil => simp [find_first_dict_field_children, dictPairsChildren]
    | cons f fs =>
      cases x1 with
      | nil => simp [find_first_dict_field_children, dictPairsChildren]
      | cons i is_ => exact (hno f fs i is_ rfl rfl).elim
  · intro f ipc hid _
    simp [find_first_dict_field, hid, dictPairs, List.find?_cons, dictIdPred]
  · intro f ipc fid hid hne ih hwf
    simp only [wfField] at hwf
    have hfid : fid ≠ id := fun h => hne h.symm
    simp only [find_first_dict_field, hid]
    rw [if_neg hne]
    rw [ih hwf]
    simp [dictPairs, List.find?_cons, dictIdPred, hid, hfid]
  · intro f ipc hid ih hwf
    simp only [wfField] at hwf
    simp only [find_first_dict_field, hid]
    rw [ih hwf]
    simp [dictPairs, List.find?_cons, dictIdPred, hid]

/-- Top-level loop of the lookup computes the first hit over the
concatenated pre-order flattenings of the top-level pairs. -/
theorem first_dict_field_loop_spec (id : Int) (prs : List (Field × IpcField))
    (hwf : ∀ p ∈ prs, wfField p.1 p.2 = true) :
    first_dict_field_loop id prs =
      .ok ((prs.flatMap fun p => dictPairs p.1 p.2).find? (dictIdPred id)) := by
  induction prs with
  | nil => rfl
  | cons pr prs ih =>
    obtain ⟨f, i⟩ := pr
    have h1 := find_first_dict_field_spec id f i (hwf (f, i) (by simp))
    simp only [first_dict_field_loop, h1, List.flatMap_cons, List.find?_append]
    cases hfind : (dictPairs f i).find? (dictIdPred id) with
    | some r => simp
    | none =>
      simp only [Option.none_or]
      exact ih (fun p hp => hwf p (by simp [hp]))

/-- C5: for every schema with parallel IPC metadata and every dictionary
id, the lookup returns the first (field, IPC field) pair carrying the id
in depth-first pre-order over the type trees (top-level fields left to
right, struct and union children in declared order, list-like types
descending into the element child, dictionary types into the inner value
type), and an invalid-id format error when no pair carries the id. -/
theorem claim_C5 (id : Int) (fields : List Field) (ipc_fields : List IpcField)
    (hlen : fields.length = ipc_fields.length)
    (hwf : ∀ p ∈ fields.zip ipc_fields, wfField p.1 p.2 = true) :
    first_dict_field id fields ipc_fields =
      match ((fields.zip ipc_fields).flatMap fun p => dictPairs p.1 p.2).find?
          (dictIdPred id) with
      | some r => .ok r
      | none => .error (.oos (.InvalidId id)) := by
  simp only [first_dict_field, if_pos hlen, first_dict_field_loop_spec id _ hwf]
  cases ((fields.zip ipc_fields).flatMap fun p => dictPairs p.1 p.2).find?
      (dictIdPred id) <;> rfl

/-- Witness for C5 at a concrete input: a single dictionary-typed field
whose metadata carries id 7. -/
theorem claim_C5_witness :
    first_dict_field 7 [.mk "a" (.dictionary 0 (.primitive 1) false) false]
      [.mk [] (some 7)] =
      match (([.mk "a" (.dictionary 0 (.primitive 1) false) false].zip
          [IpcField.mk [] (some 7)]).flatMap fun p => dictPairs p.1 p.2).find?
          (dictIdPred 7) with
      | some r => .ok r
      | none => .error (.oos (.InvalidId 7)) :=
  claim_C5 7 [.mk "a" (.dictionary 0 (.primitive 1) false) false] [.mk [] (some 7)]
    rfl (by
      intro p hp
      simp only [List.zip_cons_cons, List.zip_nil_right, List.mem_singleton] at hp
      subst hp
      simp [wfField, wfDtype, Field.dtype])

/-- C4: a dictionary batch whose is-delta flag is set is rejected with
the unsupported-feature error regardless of the payload content, and
every failing invocation of `read_dictionary` (delta flag, lookup
failure, missing payload, non-dictionary matched field, or decode
failure) leaves the dictionary cache exactly as it was before the call:
the cache is written only by the final insertion of the success path. -/
theorem claim_C4 {α : Type} (fields : List Field) (ipc_schema : IpcSchema)
    (cap : DecodeCap α) (file_size : Nat) :
    (∀ (batch : DictionaryBatchRef) (d : Dictionaries α), batch.is_delta = true →
      read_dictionary batch fields ipc_schema d cap file_size =
        (.error (.ComputeError "delta dictionary batches not supported"), d)) ∧
    (∀ (batch : DictionaryBatchRef) (d : Dictionaries α) (e : PolarsError),
      (read_dictionary batch fields ipc_schema d cap file_size).1 = .error e →
      (read_dictionary batch fields ipc_schema d cap file_size).2 = d) := by
  constructor
  · intro batch d hdelta
    simp [read_dictionary, hdelta]
  · intro batch d e herr
    by_cases hdelta : batch.is_delta = true
    · simp [read_dictionary, hdelta]
    · cases hf : first_dict_field batch.id fields ipc_schema.fields with
      | panicked => simp [read_dictionary, hdelta, hf]
      | error e2 => simp [read_dictionary, hdelta, hf]
      | ok pr =>
        obtain ⟨ff, fi⟩ := pr
        cases hdata : batch.data with
        | none => simp [read_dictionary, hdelta, hf, hdata]
        | some data =>
          cases hdt : ff.dtype with
          | dictionary k vt s =>
            cases hrrb : read_record_batch data [Field.mk "" vt false]
                ⟨[fi], ipc_schema.is_little_endian⟩ none none d cap file_size with
            | panicked => simp [read_dictionary, hdelta, hf, hdata, hdt, hrrb]
            | error e2 => simp [read_dictionary, hdelta, hf, hdata, hdt, hrrb]
            | ok chunk =>
              cases hlast : chunk.arrays.getLast? with
              | none => simp [read_dictionary, hdelta, hf, hdata, hdt, hrrb, hlast]
              | some arr =>
                simp [read_dictionary, hdelta, hf, hdata, hdt, hrrb, hlast] at herr
          | primitive tag => simp [read_dictionary, hdelta, hf, hdata, hdt]
          | list f => simp [read_dictionary, hdelta, hf, hdata, hdt]
          | largeList f => simp [read_dictionary, hdelta, hf, hdata, hdt]
          | fixedSizeList f n => simp [read_dictionary, hdelta, hf, hdata, hdt]
          | map f b => simp [read_dictionary, hdelta, hf, hdata, hdt]
          | struct fs => simp [read_dictionary, hdelta, hf, hdata, hdt]
          | union fs => simp [read_dictionary, hdelta, hf, hdata, hdt]

/-- Witness for C4 at a concrete input: a delta-flagged dictionary batch
is rejected and the cache is returned unchanged. -/
theorem claim_C4_witness :
    read_dictionary ⟨true, 0, none⟩ ([] : List Field) ⟨[], true⟩ natDicts natCap 0 =
      (.error (.ComputeError "delta dictionary batches not supported"), natDicts) :=
  (claim_C4 [] ⟨[], true⟩ natCap 0).1 ⟨true, 0, none⟩ natDicts rfl

/-! Lemmas about the dictionary resolver. -/

theorem Dictionaries.insert_insert {α : Type} (d : Dictionaries α) (id : Int) (v : α) :
    (d.insert id v).insert id v = d.insert id v := by
  funext i
  by_cases hi : i = id <;> simp [Dictionaries.insert, hi]

/-- Sequential full decode does not depend on the dictionary cache when
the decode capability does not consult it. -/
theorem readAll_cache_congr {α : Type} (cap : DecodeCap α) (d d' : Dictionaries α)
    (comp lim : Option Nat)
    (hcap : ∀ c f i (d1 d2 : Dictionaries α) comp lim,
      cap.read c f i d1 comp lim = cap.read c f i d2 comp lim) :
    ∀ (prs : List (Field × IpcField)) (cur : Cursors),
      readAll cap d comp lim prs cur = readAll cap d' comp lim prs cur := by
  intro prs
  induction prs with
  | nil => intro cur; rfl
  | cons pr rest ih =>
    intro cur
    obtain ⟨f, i⟩ := pr
    simp only [readAll]
    rw [hcap cur f i d d' comp lim]
    cases cap.read cur f i d' comp lim with
    | error e => rfl
    | ok ac =>
      obtain ⟨a, c1⟩ := ac
      simp only [ih c1]

/-- The unprojected batch decode does not depend on the dictionary cache
when the decode capability does not consult it. -/
theorem read_record_batch_cache_congr {α : Type} (batch : RecordBatchRef)
    (fields : List Field) (ipc_schema : IpcSchema) (limit : Option Nat)
    (d d' : Dictionaries α) (cap : DecodeCap α) (file_size : Nat)
    (hcap : ∀ c f i (d1 d2 : Dictionaries α) comp lim,
      cap.read c f i d1 comp lim = cap.read c f i d2 comp lim) :
    read_record_batch batch fields ipc_schema none limit d cap file_size =
      read_record_batch batch fields ipc_schema none limit d' cap file_size := by
  have hra : ∀ (prs : List (Field × IpcField)) (cur : Cursors),
      readAll cap d batch.compression limit prs cur =
        readAll cap d' batch.compression limit prs cur :=
    readAll_cache_congr cap d d' batch.compression limit hcap
  simp only [read_record_batch, hra]

/-- Inversion of a successful unprojected decode: the Row Batch carries
the full schema, one array per field, and the clipped declared length. -/
theorem read_record_batch_none_ok_inv {α : Type} {batch : RecordBatchRef}
    {fields : List Field} {ipc_schema : IpcSchema} {limit : Option Nat}
    {d : Dictionaries α} {cap : DecodeCap α} {file_size : Nat} {chunk : RecordBatchT α}
    (h : read_record_batch batch fields ipc_schema none limit d cap file_size =
      .ok chunk) :
    chunk.schema = fields ∧ chunk.arrays.length = fields.length ∧
    chunk.length = clipLength limit batch.length.toNat := by
  simp only [read_record_batch] at h
  split at h <;> try exact POutcome.noConfusion h
  split at h <;> try exact POutcome.noConfusion h
  split at h <;> try exact POutcome.noConfusion h
  split at h <;> try exact POutcome.noConfusion h
  split at h <;> try exact POutcome.noConfusion h
  split at h <;> try exact POutcome.noConfusion h
  split at h <;> try exact POutcome.noConfusion h
  split at h <;> try exact POutcome.noConfusion h
  rename_i rb1 heq
  cases h
  simp only [RecordBatchT.try_new] at heq
  split at heq
  · rename_i harr
    cases heq
    exact ⟨rfl, harr, rfl⟩
  · exact Except.noConfusion heq

/-- C7: resolving the same dictionary id twice with identical payloads
leaves the cache equal to resolving it once (re-insertion under an
existing id is a full overwrite), and the dictionary payload is decoded
as a whole single-column batch — with no projection and no row limit, so
with the full declared payload length — whose single array is what the
cache maps the id to. The decode capability is assumed not to consult
the cache (the hypothesis `hcap`), reflecting that dictionary payloads
are ordinary one-column batches resolved before any column referring to
them. -/
theorem claim_C7 {α : Type} (batch : DictionaryBatchRef) (fields : List Field)
    (ipc_schema : IpcSchema) (d d1 : Dictionaries α) (cap : DecodeCap α)
    (file_size : Nat)
    (hcap : ∀ c f i (d2 d3 : Dictionaries α) comp lim,
      cap.read c f i d2 comp lim = cap.read c f i d3 comp lim)
    (h1 : read_dictionary batch fields ipc_schema d cap file_size = (.ok (), d1)) :
    read_dictionary batch fields ipc_schema d1 cap file_size = (.ok (), d1) ∧
    ∃ ff fi data k vt s chunk arr,
      first_dict_field batch.id fields ipc_schema.fields = .ok (ff, fi) ∧
      batch.data = some data ∧
      ff.dtype = .dictionary k vt s ∧
      read_record_batch data [Field.mk "" vt false] ⟨[fi], ipc_schema.is_little_endian⟩
        none none d cap file_size = .ok chunk ∧
      chunk.arrays = [arr] ∧
      chunk.length = clipLength none data.length.toNat ∧
      d1 = d.insert batch.id arr := by
  by_cases hdelta : batch.is_delta = true
  · simp [read_dictionary, hdelta] at h1
  · cases hf : first_dict_field batch.id fields ipc_schema.fields with
    | panicked => simp [read_dictionary, hdelta, hf] at h1
    | error e2 => simp [read_dictionary, hdelta, hf] at h1
    | ok pr =>
      obtain ⟨ff, fi⟩ := pr
      cases hdata : batch.data with
      | none => simp [read_dictionary, hdelta, hf, hdata] at h1
      | some data =>
        cases hdt : ff.dtype with
        | dictionary k vt s =>
          cases hrrb : read_record_batch data [Field.mk "" vt false]
              ⟨[fi], ipc_schema.is_little_endian⟩ none none d cap file_size with
          | panicked => simp [read_dictionary, hdelta, hf, hdata, hdt, hrrb] at h1
          | error e2 => simp [read_dictionary, hdelta, hf, hdata, hdt, hrrb] at h1
          | ok chunk =>
            cases hlast : chunk.arrays.getLast? with
            | none => simp [read_dictionary, hdelta, hf, hdata, hdt, hrrb, hlast] at h1
            | some arr =>
              simp only [read_dictionary, hdelta, hf, hdata, hdt, hrrb, hlast,
                Bool.false_eq_true, if_false] at h1
              have hins : d1 = d.insert batch.id arr := by
                have h2 := congrArg Prod.snd h1
                simpa using h2.symm
              obtain ⟨hschema, hlen1, hclip⟩ := read_record_batch_none_ok_inv hrrb
              have harr : chunk.arrays = [arr] := by
                cases hca : chunk.arrays with
                | nil => rw [hca] at hlen1; simp at hlen1
                | cons a t =>
                  cases t with
                  | nil =>
                    rw [hca] at hlast
                    simp only [List.getLast?_singleton, Option.some.injEq] at hlast
                    rw [hlast]
                  | cons b t2 =>
                    rw [hca] at hlen1
                    simp at hlen1
              refine ⟨?_, ff, fi, data, k, vt, s, chunk, arr, rfl, rfl, hdt, hrrb,
                harr, hclip, hins⟩
              have hcongr := read_record_batch_cache_congr data [Field.mk "" vt false]
                ⟨[fi], ipc_schema.is_little_endian⟩ none d1 d cap file_size hcap
              simp only [read_dictionary, hdelta, hf, hdata, hdt, hcongr, hrrb, hlast,
                Bool.false_eq_true, if_false]
              rw [hins, Dictionaries.insert_insert]
        | primitive tag => simp [read_dictionary, hdelta, hf, hdata, hdt] at h1
        | list f => simp [read_dictionary, hdelta, hf, hdata, hdt] at h1
        | largeList f => simp [read_dictionary, hdelta, hf, hdata, hdt] at h1
        | fixedSizeList f n => simp [read_dictionary, hdelta, hf, hdata, hdt] at h1
        | map f b => simp [read_dictionary, hdelta, hf, hdata, hdt] at h1
        | struct fs => simp [read_dictionary, hdelta, hf, hdata, hdt] at h1
        | union fs => simp [read_dictionary, hdelta, hf, hdata, hdt] at h1

/-- Witness for C7 at a concrete input: a one-field dictionary schema
with id 7 and a one-row payload; resolving a second time over the
already-populated cache leaves it unchanged. -/
theorem claim_C7_witness :
    read_dictionary ⟨false, 7, some ⟨some [], none, some [⟨4, 0⟩], 4, none⟩⟩
      [.mk "col" (.dictionary 0 (.primitive 1) false) false] ⟨[.mk [] (some 7)], true⟩
      (natDicts.insert 7 1) natCap 0 = (.ok (), natDicts.insert 7 1) :=
  (claim_C7 ⟨false, 7, some ⟨some [], none, some [⟨4, 0⟩], 4, none⟩⟩
      [.mk "col" (.dictionary 0 (.primitive 1) false) false] ⟨[.mk [] (some 7)], true⟩
      natDicts (natDicts.insert 7 1) natCap 0
      (fun _ _ _ _ _ _ _ => rfl)
      (by
        have hf : first_dict_field 7
            [Field.mk "col" (.dictionary 0 (.primitive 1) false) false]
            [IpcField.mk [] (some 7)] =
            .ok (Field.mk "col" (.dictionary 0 (.primitive 1) false) false,
              IpcField.mk [] (some 7)) := by
          simp [first_dict_field, first_dict_field_loop, find_first_dict_field,
            IpcField.dictionary_id]
        simp only [read_dictionary, hf]
        rfl)).1

/-! Lemmas about the projected decode (claim C1). -/

theorem readAll_length {α : Type} {cap : DecodeCap α} {d : Dictionaries α}
    {comp lim : Option Nat} :
    ∀ {prs : List (Field × IpcField)} {cur : Cursors} {vals : List α} {cend : Cursors},
    readAll cap d comp lim prs cur = .ok (vals, cend) → vals.length = prs.length := by
  intro prs
  induction prs with
  | nil =>
    intro cur vals cend h
    simp only [readAll] at h
    cases h
    rfl
  | cons pr rest ih =>
    intro cur vals cend h
    obtain ⟨f, i⟩ := pr
    simp only [readAll] at h
    cases hr : cap.read cur f i d comp lim with
    | error e => simp only [hr] at h; exact Except.noConfusion h
    | ok ac =>
      obtain ⟨a, c1⟩ := ac
      simp only [hr] at h
      cases hrest : readAll cap d comp lim rest c1 with
      | error e => simp only [hrest] at h; exact Except.noConfusion h
      | ok vc =>
        obtain ⟨vs, c2⟩ := vc
        simp only [hrest] at h
        cases h
        simp [ih hrest]

/-- Skipping every remaining pair from an exhausted sequencer state
follows the same cursor trajectory as reading them, and collects
nothing. -/
theorem readProjected_exhausted {α : Type} {cap : DecodeCap α} {d : Dictionaries α}
    {comp lim : Option Nat}
    (hskip : ∀ c f i a c2, cap.read c f i d comp lim = .ok (a, c2) →
      cap.skip c f.dtype = .ok c2) :
    ∀ (prs : List (Field × IpcField)) (cur : Cursors) (vals : List α) (cend : Cursors)
      (c : Nat),
    readAll cap d comp lim prs cur = .ok (vals, cend) → 1 ≤ c →
    readProjected cap d comp lim ⟨[], c, 0⟩ prs cur = .ok ([], cend) := by
  intro prs
  induction prs with
  | nil =>
    intro cur vals cend c h _
    simp only [readAll] at h
    cases h
    rfl
  | cons pr rest ih =>
    intro cur vals cend c h hc
    obtain ⟨f, i⟩ := pr
    simp only [readAll] at h
    cases hr : cap.read cur f i d comp lim with
    | error e => simp only [hr] at h; exact Except.noConfusion h
    | ok ac =>
      obtain ⟨a, c1⟩ := ac
      simp only [hr] at h
      cases hrest : readAll cap d comp lim rest c1 with
      | error e => simp only [hrest] at h; exact Except.noConfusion h
      | ok vc =>
        obtain ⟨vs, c2⟩ := vc
        simp only [hrest] at h
        cases h
        have hc0 : ¬ c = 0 := by omega
        have hsk := hskip cur f i a c1 hr
        simp only [readProjected, ProjectionIter.next, if_neg hc0, hsk]
        exact ih c1 vs cend (c + 1) hrest (by omega)

/-- Central correctness of the projected decode: when the full decode
from the same cursors succeeds, the projected decode follows the same
cursor trajectory (skips consume exactly what reads would) and collects
exactly the arrays of the wanted positions, in order. -/
theorem readProjected_spec {α : Type} [Inhabited α] {cap : DecodeCap α}
    {d : Dictionaries α} {comp lim : Option Nat}
    (hskip : ∀ c f i a c2, cap.read c f i d comp lim = .ok (a, c2) →
      cap.skip c f.dtype = .ok c2) :
    ∀ (prs : List (Field × IpcField)) (c p : Nat) (w : List Nat) (cur : Cursors)
      (vals : List α) (cend : Cursors),
    readAll cap d comp lim prs cur = .ok (vals, cend) →
    c ≤ p → List.Chain' (· < ·) (p :: w) → (∀ j ∈ p :: w, j < c + prs.length) →
    readProjected cap d comp lim ⟨w, c, p⟩ prs cur =
      .ok ((p :: w).map (fun j => vals.getD (j - c) default), cend) := by
  intro prs
  induction prs with
  | nil =>
    intro c p w cur vals cend _ hcp _ hbound
    have hp := hbound p (by simp)
    simp at hp
    omega
  | cons pr rest ih =>
    intro c p w cur vals cend h hcp hchain hbound
    obtain ⟨f, i⟩ := pr
    simp only [readAll] at h
    cases hr : cap.read cur f i d comp lim with
    | error e => simp only [hr] at h; exact Except.noConfusion h
    | ok ac =>
      obtain ⟨a, c1⟩ := ac
      simp only [hr] at h
      cases hrest : readAll cap d comp lim rest c1 with
      | error e => simp only [hrest] at h; exact Except.noConfusion h
      | ok vc =>
        obtain ⟨vs, c2⟩ := vc
        simp only [hrest] at h
        cases h
        by_cases hc : c = p
        · subst hc
          cases w with
          | nil =>
            have hexh := readProjected_exhausted hskip rest c1 vs cend (c + 1)
              hrest (by omega)
            simp only [readProjected, ProjectionIter.next]
            rw [if_pos trivial]
            simp [hr, hexh]
          | cons q w2 =>
            have hq : c < q := chain'_head_lt_mem hchain q (by simp)
            have hrec := ih (c + 1) q w2 c1 vs cend hrest (by omega) hchain.tail
              (by
                intro j hj
                have := hbound j (by simp [hj])
                simp at this ⊢
                omega)
            simp only [readProjected, ProjectionIter.next]
            rw [if_pos trivial]
            rw [if_pos hq]
            simp only [hr, hrec]
            have hmap : (q :: w2).map (fun j => vs.getD (j - (c + 1)) default) =
                (q :: w2).map (fun j => (a :: vs).getD (j - c) default) := by
              apply List.map_congr_left
              intro j hj
              have hjc : c < j := by
                rcases List.mem_cons.mp hj with rfl | hmem
                · exact hq
                · exact lt_trans hq (chain'_head_lt_mem hchain.tail j hmem)
              have hsub : j - c = (j - (c + 1)) + 1 := by omega
              rw [hsub, List.getD_cons_succ]
            rw [hmap]
            have hfinal : List.map (fun j => (a :: vs).getD (j - c) default) (c :: q :: w2)
                = a :: List.map (fun j => (a :: vs).getD (j - c) default) (q :: w2) := by
              rw [List.map_cons]
              congr 1
              show (a :: vs).getD (c - c) default = a
              rw [Nat.sub_self]
              rfl
            rw [hfinal]
        · have hc2 : c < p := by omega
          have hsk := hskip cur f i a c1 hr
          have hrec := ih (c + 1) p w c1 vs cend hrest (by omega) hchain
            (by
              intro j hj
              have := hbound j hj
              simp at this ⊢
              omega)
          simp only [readProjected, ProjectionIter.next, if_neg hc, hsk, hrec]
          have hmap : (p :: w).map (fun j => vs.getD (j - (c + 1)) default) =
              (p :: w).map (fun j => (a :: vs).getD (j - c) default) := by
            apply List.map_congr_left
            intro j hj
            have hjc : c < j := by
              rcases List.mem_cons.mp hj with rfl | hmem
              · exact hc2
              · exact lt_trans hc2 (chain'_head_lt_mem hchain j hmem)
            have hsub : j - c = (j - (c + 1)) + 1 := by omega
            rw [hsub, List.getD_cons_succ]
          rw [hmap]

theorem map_getD_range (l : List Nat) :
    (List.range l.length).map (fun i => l.getD i 0) = l := by
  apply List.ext_getElem?
  intro j
  by_cases hj : j < l.length
  · rw [List.getElem?_map, List.getElem?_range hj]
    simp [List.getElem?_eq_getElem hj]
  · rw [List.getElem?_map]
    rw [List.getElem?_eq_none (by simp; omega), List.getElem?_eq_none (by omega)]
    rfl

/-- Sorting the permutation array by the requested indices as keys and
reading the keys back off yields exactly the sorted requested list. -/
theorem mergeSort_bykey_map (req : List Nat) :
    ((List.range req.length).mergeSort
        (fun i j => req.getD i 0 ≤ req.getD j 0)).map (fun i => req.getD i 0) =
      req.mergeSort (· ≤ ·) := by
  have htrans : ∀ (a b c : Nat),
      (decide (req.getD a 0 ≤ req.getD b 0)) = true →
      (decide (req.getD b 0 ≤ req.getD c 0)) = true →
      (decide (req.getD a 0 ≤ req.getD c 0)) = true := by
    intro a b c hab hbc
    simp only [decide_eq_true_eq] at *
    omega
  have htotal : ∀ (a b : Nat),
      ((decide (req.getD a 0 ≤ req.getD b 0)) ||
        (decide (req.getD b 0 ≤ req.getD a 0))) = true := by
    intro a b
    simp only [Bool.or_eq_true, decide_eq_true_eq]
    omega
  have hidx_sorted := @List.sorted_mergeSort Nat
    (fun i j => decide (req.getD i 0 ≤ req.getD j 0)) htrans htotal
    (List.range req.length)
  refine List.eq_of_perm_of_sorted ?_ ?_ (List.sorted_mergeSort' req)
  · have p1 := (List.mergeSort_perm (List.range req.length)
      (fun i j => req.getD i 0 ≤ req.getD j 0)).map (fun i => req.getD i 0)
    rw [map_getD_range] at p1
    exact p1.trans ((List.mergeSort_perm req _).symm)
  · exact List.pairwise_map.mpr (hidx_sorted.imp (fun h => by simpa using h))

/-- The sorted requested list is strictly increasing when the requested
list has no duplicates. -/
theorem mergeSort_chain'_lt (req : List Nat) (hnd : req.Nodup) :
    List.Chain' (· < ·) (req.mergeSort (· ≤ ·)) := by
  rw [List.chain'_iff_pairwise]
  have h1 : List.Sorted (· ≤ ·) (req.mergeSort (· ≤ ·)) := List.sorted_mergeSort' req
  have h2 : (req.mergeSort (· ≤ ·)).Nodup :=
    ((List.mergeSort_perm req _).nodup_iff).mpr hnd
  exact (h1.and h2).imp (fun h => lt_of_le_of_ne h.1 h.2)

/-- The reordering loop of `apply_projection` succeeds under in-range
positions, preserves lengths, leaves unmapped positions unchanged, and
writes the entry at the old position of each pair into its new
position. -/
theorem apply_projection_go_spec {α : Type} (schema : List Field) (arrays : List α) :
    ∀ (m : List (Nat × Nat)) (ns : List Field) (na : List α),
    (∀ pr ∈ m, pr.1 < schema.length ∧ pr.1 < arrays.length ∧
      pr.2 < ns.length ∧ pr.2 < na.length) →
    (m.map Prod.snd).Nodup →
    ∃ ns2 na2, apply_projection_go schema arrays m ns na = .ok (ns2, na2) ∧
      ns2.length = ns.length ∧ na2.length = na.length ∧
      (∀ j, (∀ pr ∈ m, pr.2 ≠ j) → ns2[j]? = ns[j]? ∧ na2[j]? = na[j]?) ∧
      (∀ pr ∈ m, ns2[pr.2]? = schema[pr.1]? ∧ na2[pr.2]? = arrays[pr.1]?) := by
  intro m
  induction m with
  | nil =>
    intro ns na _ _
    exact ⟨ns, na, rfl, rfl, rfl, fun j _ => ⟨rfl, rfl⟩, fun pr hpr => absurd hpr (by simp)⟩
  | cons hd rest ih =>
    intro ns na hb hnd
    obtain ⟨old, new⟩ := hd
    obtain ⟨ho1, ho2, hn1, hn2⟩ := hb (old, new) (by simp)
    simp only [List.map_cons, List.nodup_cons] at hnd
    obtain ⟨hnotin, hnd2⟩ := hnd
    obtain ⟨fo, hfo⟩ : ∃ fo, schema[old]? = some fo :=
      ⟨_, List.getElem?_eq_getElem ho1⟩
    obtain ⟨ao, hao⟩ : ∃ ao, arrays[old]? = some ao :=
      ⟨_, List.getElem?_eq_getElem ho2⟩
    have hstep : apply_projection_go schema arrays ((old, new) :: rest) ns na =
        apply_projection_go schema arrays rest (ns.set new fo) (na.set new ao) := by
      simp only [apply_projection_go, hfo, hao]
      rw [if_pos ⟨hn1, hn2⟩]
    have hbounds2 : ∀ pr ∈ rest, pr.1 < schema.length ∧ pr.1 < arrays.length ∧
        pr.2 < (ns.set new fo).length ∧ pr.2 < (na.set new ao).length := by
      intro pr hpr
      have := hb pr (by simp [hpr])
      simpa [List.length_set] using this
    obtain ⟨ns2, na2, heq, hl1, hl2, huntouched, hhit⟩ :=
      ih (ns.set new fo) (na.set new ao) hbounds2 hnd2
    refine ⟨ns2, na2, by rw [hstep, heq], by rw [hl1, List.length_set],
      by rw [hl2, List.length_set], ?_, ?_⟩
    · intro j hj
      have hnew : new ≠ j := hj (old, new) (by simp)
      have hrestne : ∀ pr ∈ rest, pr.2 ≠ j := fun pr hpr => hj pr (by simp [hpr])
      obtain ⟨u1, u2⟩ := huntouched j hrestne
      refine ⟨?_, ?_⟩
      · rw [u1, List.getElem?_set_ne hnew]
      · rw [u2, List.getElem?_set_ne hnew]
    · intro pr hpr
      rcases List.mem_cons.mp hpr with rfl | hmem
      · have hrestne : ∀ pr2 ∈ rest, pr2.2 ≠ new := by
          intro pr2 hpr2 hc
          exact hnotin (hc ▸ List.mem_map_of_mem Prod.snd hpr2)
        obtain ⟨u1, u2⟩ := huntouched new hrestne
        refine ⟨?_, ?_⟩
        · rw [u1, List.getElem?_set_self hn1, hfo]
        · rw [u2, List.getElem?_set_self hn2, hao]
      · exact hhit pr hmem

/-- C1 (amended): for every schema and every non-empty valid requested
column-index list (any order, no duplicates, all indices in range),
whenever the full decode of a batch succeeds, decoding with the sorted
index list of the plan and then applying the map of the plan via
`apply_projection` produces a Row Batch whose schema field order and
array order match the original requested order, with the row length
unchanged, and each output array is the decoded array of the
corresponding requested column (no array is re-decoded: the projected
decode collects the same arrays the full decode produces). -/
theorem claim_C1 {α : Type} [Inhabited α] (batch : RecordBatchRef) (fields : List Field)
    (ipc_schema : IpcSchema) (req : List Nat) (limit : Option Nat) (d : Dictionaries α)
    (cap : DecodeCap α) (file_size : Nat) (bs : List Buffer) (ns : List FieldNode)
    (vals : List α) (cend : Cursors)
    (hlen : fields.length = ipc_schema.fields.length)
    (hne : req ≠ [])
    (hnd : req.Nodup)
    (hbound : ∀ i ∈ req, i < fields.length)
    (hb : batch.buffers = some bs)
    (hnn : ∀ b ∈ bs, 0 ≤ b.length)
    (hsz : (bs.map (fun b => b.length.toNat)).sum ≤ file_size)
    (hn : batch.nodes = some ns)
    (hneg : 0 ≤ batch.length)
    (hra : readAll cap d batch.compression limit (fields.zip ipc_schema.fields)
      ⟨ns, batch.variadic_buffer_counts.getD [], bs⟩ = .ok (vals, cend))
    (hskip : ∀ c f i a c2, cap.read c f i d batch.compression limit = .ok (a, c2) →
      cap.skip c f.dtype = .ok c2) :
    ∃ info projB outB,
      prepare_projection fields req = .ok info ∧
      read_record_batch batch fields ipc_schema none limit d cap file_size =
        .ok ⟨clipLength limit batch.length.toNat, fields, vals⟩ ∧
      read_record_batch batch fields ipc_schema (some info.columns) limit d cap
        file_size = .ok projB ∧
      apply_projection projB info.map = .ok outB ∧
      outB.length = clipLength limit batch.length.toNat ∧
      outB.schema.length = req.length ∧
      outB.arrays.length = req.length ∧
      (∀ j : Nat, outB.schema[j]? = req[j]?.bind (fun i : Nat => fields[i]?)) ∧
      (∀ j : Nat, outB.arrays[j]? = req[j]?.bind (fun i : Nat => vals[i]?)) := by
  have hpairs : (fields.zip ipc_schema.fields).length = fields.length := by
    rw [List.length_zip, hlen, min_self]
  have hvals : vals.length = fields.length := by
    rw [readAll_length hra, hpairs]
  have hchainS : List.Chain' (· < ·) (req.mergeSort (· ≤ ·)) := mergeSort_chain'_lt req hnd
  have hsortperm : (req.mergeSort (· ≤ ·)).Perm req := List.mergeSort_perm req _
  have hsortlen : (req.mergeSort (· ≤ ·)).length = req.length := hsortperm.length_eq
  have hsortmem : ∀ i ∈ req.mergeSort (· ≤ ·), i < fields.length :=
    fun i hi => hbound i (hsortperm.mem_iff.mp hi)
  have hprep : prepare_projection fields req = .ok
      ⟨req.mergeSort (· ≤ ·),
       ((List.range req.length).mergeSort
         (fun i j => req.getD i 0 ≤ req.getD j 0)).enum,
       req.map (fun i => fields.getD i default)⟩ := by
    simp only [prepare_projection]
    rw [if_pos hbound, if_pos hchainS]
  have hfull : read_record_batch batch fields ipc_schema none limit d cap file_size =
      .ok ⟨clipLength limit batch.length.toNat, fields, vals⟩ := by
    simp only [read_record_batch, hb, hlen, bufferSizeSum_of_nonneg bs hnn, hn]
    rw [if_pos trivial]
    rw [if_neg (by
      have hm := Nat.mod_le ((bs.map (fun b => b.length.toNat)).sum) (2 ^ 64)
      omega)]
    simp only [hra]
    rw [if_neg (by omega)]
    simp only [RecordBatchT.try_new]
    rw [if_pos (by rw [hvals])]
  obtain ⟨p, w, hpw⟩ : ∃ p w, req.mergeSort (· ≤ ·) = p :: w := by
    cases hsort : req.mergeSort (· ≤ ·) with
    | nil =>
      have h0 : req.length = 0 := by rw [← hsortlen, hsort]; rfl
      exact absurd (List.length_eq_zero.mp h0) hne
    | cons a l => exact ⟨a, l, rfl⟩
  have hchainPW : List.Chain' (· < ·) (p :: w) := hpw ▸ hchainS
  have hplen : (p :: w).length = req.length := by rw [← hpw, hsortlen]
  have hmemPW : ∀ i ∈ p :: w, i < fields.length := by
    intro i hi
    exact hsortmem i (by rw [hpw]; exact hi)
  have hboundPW : ∀ j ∈ p :: w, j < 0 + (fields.zip ipc_schema.fields).length := by
    intro j hj
    have h1 := hmemPW j hj
    omega
  have hproj := readProjected_spec hskip (fields.zip ipc_schema.fields) 0 p w
    ⟨ns, batch.variadic_buffer_counts.getD [], bs⟩ vals cend hra (Nat.zero_le p)
    hchainPW hboundPW
  have hsub0 : (p :: w).map (fun j => vals.getD (j - 0) default) =
      (p :: w).map (fun j => vals.getD j default) :=
    List.map_congr_left (fun j _ => by rw [Nat.sub_zero])
  have hprojrrb : read_record_batch batch fields ipc_schema (some (p :: w)) limit d cap
      file_size = .ok ⟨clipLength limit batch.length.toNat,
        (p :: w).map (fun i => fields.getD i default),
        (p :: w).map (fun j => vals.getD j default)⟩ := by
    simp only [read_record_batch, hb, hlen, bufferSizeSum_of_nonneg bs hnn, hn]
    rw [if_pos trivial]
    rw [if_neg (by
      have hm := Nat.mod_le ((bs.map (fun b => b.length.toNat)).sum) (2 ^ 64)
      omega)]
    simp only [ProjectionIter.new, hproj, hsub0]
    rw [if_neg (by omega)]
    simp only [try_project_indices]
    rw [if_pos hmemPW]
    simp only [RecordBatchT.try_new]
    rw [if_pos (by simp)]
  have hidxperm : ((List.range req.length).mergeSort
      (fun i j => req.getD i 0 ≤ req.getD j 0)).Perm (List.range req.length) :=
    List.mergeSort_perm _ _
  have hidxlen : ((List.range req.length).mergeSort
      (fun i j => req.getD i 0 ≤ req.getD j 0)).length = req.length := by
    rw [hidxperm.length_eq, List.length_range]
  have hidxnodup : ((List.range req.length).mergeSort
      (fun i j => req.getD i 0 ≤ req.getD j 0)).Nodup :=
    hidxperm.nodup_iff.mpr (List.nodup_range req.length)
  have hidxmem : ∀ i ∈ (List.range req.length).mergeSort
      (fun i j => req.getD i 0 ≤ req.getD j 0), i < req.length :=
    fun i hi => List.mem_range.mp (hidxperm.mem_iff.mp hi)
  have hkey : ((List.range req.length).mergeSort
      (fun i j => req.getD i 0 ≤ req.getD j 0)).map (fun i => req.getD i 0) =
      p :: w := by rw [mergeSort_bykey_map req, hpw]
  have hgb : ∀ pr ∈ ((List.range req.length).mergeSort
      (fun i j => req.getD i 0 ≤ req.getD j 0)).enum,
      pr.1 < ((p :: w).map (fun i => fields.getD i default)).length ∧
      pr.1 < ((p :: w).map (fun j => vals.getD j default)).length ∧
      pr.2 < ((p :: w).map (fun i => fields.getD i default)).length ∧
      pr.2 < ((p :: w).map (fun j => vals.getD j default)).length := by
    intro pr hpr
    obtain ⟨pos, idx⟩ := pr
    have hmem := List.mk_mem_enum_iff_getElem?.mp hpr
    have hpos : pos < ((List.range req.length).mergeSort
        (fun i j => req.getD i 0 ≤ req.getD j 0)).length := by
      by_contra hc
      rw [List.getElem?_eq_none (by omega)] at hmem
      exact Option.noConfusion hmem
    have hidxval : idx ∈ (List.range req.length).mergeSort
        (fun i j => req.getD i 0 ≤ req.getD j 0) := by
      have h2 : ((List.range req.length).mergeSort
          (fun i j => req.getD i 0 ≤ req.getD j 0))[pos] = idx := by
        rw [List.getElem?_eq_getElem hpos] at hmem
        exact Option.some.inj hmem
      exact h2 ▸ List.getElem_mem hpos
    have hidxk := hidxmem idx hidxval
    have hml : ((p :: w).map (fun i => fields.getD i default)).length = req.length := by
      rw [List.length_map, hplen]
    have hml2 : ((p :: w).map (fun j => vals.getD j default)).length = req.length := by
      rw [List.length_map, hplen]
    rw [hidxlen] at hpos
    exact ⟨by omega, by omega, by omega, by omega⟩
  have hnds : ((((List.range req.length).mergeSort
      (fun i j => req.getD i 0 ≤ req.getD j 0)).enum).map Prod.snd).Nodup := by
    rw [List.enum_map_snd]
    exact hidxnodup
  obtain ⟨ns2, na2, hgo, hl1, hl2, huntouch, hhit⟩ := apply_projection_go_spec
    ((p :: w).map (fun i => fields.getD i default))
    ((p :: w).map (fun j => vals.getD j default))
    (((List.range req.length).mergeSort (fun i j => req.getD i 0 ≤ req.getD j 0)).enum)
    ((p :: w).map (fun i => fields.getD i default))
    ((p :: w).map (fun j => vals.getD j default)) hgb hnds
  have hl1k : ns2.length = req.length := by rw [hl1, List.length_map, hplen]
  have hl2k : na2.length = req.length := by rw [hl2, List.length_map, hplen]
  have hmain : ∀ j : Nat, ns2[j]? = req[j]?.bind (fun i : Nat => fields[i]?) ∧
      na2[j]? = req[j]?.bind (fun i : Nat => vals[i]?) := by
    intro j
    by_cases hj : j < req.length
    · have hjin : j ∈ (List.range req.length).mergeSort
          (fun i j => req.getD i 0 ≤ req.getD j 0) :=
        hidxperm.mem_iff.mpr (List.mem_range.mpr hj)
      obtain ⟨p0, hp0, hval⟩ := List.getElem_of_mem hjin
      have hpr : (p0, j) ∈ ((List.range req.length).mergeSort
          (fun i j => req.getD i 0 ≤ req.getD j 0)).enum :=
        List.mk_mem_enum_iff_getElem?.mpr (by rw [List.getElem?_eq_getElem hp0, hval])
      obtain ⟨hhitS, hhitA⟩ := hhit (p0, j) hpr
      have hsortval : (p :: w)[p0]? = some (req.getD j 0) := by
        have h1 : (((List.range req.length).mergeSort
            (fun i j => req.getD i 0 ≤ req.getD j 0)).map
              (fun i => req.getD i 0))[p0]? = some (req.getD j 0) := by
          rw [List.getElem?_map, List.getElem?_eq_getElem hp0, hval]
          rfl
        rw [hkey] at h1
        exact h1
      have hreqj : req[j]? = some (req.getD j 0) := by
        rw [List.getElem?_eq_getElem hj]
        simp [List.getElem?_eq_getElem hj]
      have hrmem : req.getD j 0 ∈ req := by
        have h2 : req.getD j 0 = req[j] := by
          simp [List.getElem?_eq_getElem hj]
        rw [h2]
        exact List.getElem_mem hj
      have hrf : req.getD j 0 < fields.length := hbound _ hrmem
      have hrv : req.getD j 0 < vals.length := by rw [hvals]; exact hrf
      constructor
      · rw [hhitS, List.getElem?_map, hsortval, hreqj]
        simp only [Option.map_some', Option.some_bind]
        rw [List.getElem?_eq_getElem hrf]
        congr 1
        rw [List.getD_eq_getElem?_getD, List.getElem?_eq_getElem hrf]
        rfl
      · rw [hhitA, List.getElem?_map, hsortval, hreqj]
        simp only [Option.map_some', Option.some_bind]
        rw [List.getElem?_eq_getElem hrv]
        congr 1
        rw [List.getD_eq_getElem?_getD, List.getElem?_eq_getElem hrv]
        rfl
    · have h1 : ns2[j]? = none := List.getElem?_eq_none (by omega)
      have h2 : na2[j]? = none := List.getElem?_eq_none (by omega)
      have h3 : req[j]? = none := List.getElem?_eq_none (by omega)
      rw [h1, h2, h3]
      exact ⟨rfl, rfl⟩
  refine ⟨⟨req.mergeSort (· ≤ ·),
      ((List.range req.length).mergeSort (fun i j => req.getD i 0 ≤ req.getD j 0)).enum,
      req.map (fun i => fields.getD i default)⟩,
    ⟨clipLength limit batch.length.toNat,
      (p :: w).map (fun i => fields.getD i default),
      (p :: w).map (fun j => vals.getD j default)⟩,
    ⟨clipLength limit batch.length.toNat, ns2, na2⟩,
    hprep, hfull, ?_, ?_, rfl, hl1k, hl2k,
    fun j => (hmain j).1, fun j => (hmain j).2⟩
  · show read_record_batch batch fields ipc_schema (some (req.mergeSort (· ≤ ·)))
      limit d cap file_size = _
    rw [hpw]
    exact hprojrrb
  · show apply_projection _ _ = _
    simp only [apply_projection, hgo]

/-- C1 is refuted at the empty requested list: the claim quantifies over
every valid requested column-index list (any order, no duplicates, all
indices in range), which includes the empty list; but the plan of the
empty list has an empty sorted index list, and decoding with it panics
in the sequencer constructor instead of producing a Row Batch. -/
theorem claim_C1_counterexample :
    prepare_projection [Field.mk "a" (.primitive 0) false] [] =
      .ok ⟨[], [], []⟩ ∧
    read_record_batch ⟨some [], none, some [⟨1, 0⟩], 1, none⟩
      [Field.mk "a" (.primitive 0) false] ⟨[.mk [] none], true⟩ (some []) none
      natDicts natCap 5 = .panicked := by
  constructor
  · simp [prepare_projection]
  · rfl

/-- Witness for C1 (amended) at a concrete input: two primitive fields
requested in reversed order as [1, 0]. -/
theorem claim_C1_witness :
    ∃ info projB outB,
      prepare_projection
        [Field.mk "a" (.primitive 0) false, Field.mk "b" (.primitive 1) false]
        [1, 0] = .ok info ∧
      read_record_batch ⟨some [], none, some [⟨1, 0⟩, ⟨2, 0⟩], 2, none⟩
        [Field.mk "a" (.primitive 0) false, Field.mk "b" (.primitive 1) false]
        ⟨[.mk [] none, .mk [] none], true⟩ none none natDicts natCap 0 =
        .ok ⟨clipLength none (2 : Int).toNat,
          [Field.mk "a" (.primitive 0) false, Field.mk "b" (.primitive 1) false],
          [2, 1]⟩ ∧
      read_record_batch ⟨some [], none, some [⟨1, 0⟩, ⟨2, 0⟩], 2, none⟩
        [Field.mk "a" (.primitive 0) false, Field.mk "b" (.primitive 1) false]
        ⟨[.mk [] none, .mk [] none], true⟩ (some info.columns) none natDicts natCap
        0 = .ok projB ∧
      apply_projection projB info.map = .ok outB ∧
      outB.length = clipLength none (2 : Int).toNat ∧
      outB.schema.length = ([1, 0] : List Nat).length ∧
      outB.arrays.length = ([1, 0] : List Nat).length ∧
      (∀ j : Nat, outB.schema[j]? = ([1, 0] : List Nat)[j]?.bind
        (fun i : Nat => [Field.mk "a" (.primitive 0) false,
          Field.mk "b" (.primitive 1) false][i]?)) ∧
      (∀ j : Nat, outB.arrays[j]? = ([1, 0] : List Nat)[j]?.bind
        (fun i : Nat => ([2, 1] : List Nat)[i]?)) :=
  claim_C1 ⟨some [], none, some [⟨1, 0⟩, ⟨2, 0⟩], 2, none⟩
    [Field.mk "a" (.primitive 0) false, Field.mk "b" (.primitive 1) false]
    ⟨[.mk [] none, .mk [] none], true⟩ [1, 0] none natDicts natCap 0 []
    [⟨1, 0⟩, ⟨2, 0⟩] [2, 1] ⟨[], [], []⟩ rfl (by decide) (by decide) (by decide)
    rfl (by simp) (by simp) rfl (by decide) rfl
    (by intro c f i a c2 h; cases h; rfl)

end IpcRead
